import Mathlib

/-!
# myshell.c: a shallow embedding

The shell of `src/myshell.c` is embedded function by function.

* The command buffer `char command[]` is a list of characters `Buf`.  The
  terminating NUL of a C string is either an explicit `NUL` cell of the list or
  the end of the list: a read at an index past the list yields `NUL`.
* A `char *` into the command buffer is an offset (`Nat`); `NULL` is `none`.
  The vector `char *args[MAX_ARGS]` is the list of the cells written so far;
  a read past that list yields `NULL`.
* Functions that only read strings through their `char **` argument
  (`validate_command`, `count_pipes`, `execute_command`,
  `execute_piped_command`) take the vector with every pointer resolved to the
  string it points to (`Argv`).
* System calls are recorded as a trace of `Event`s; what the operating system
  answers is read from an `Env`.  A function that runs in a process ends with an
  `Outcome`: it returns, the process exits, the process image is replaced, or
  the behaviour is undefined.
* A C loop is a function recursive on a fuel argument.  Where the source bounds the
  loop itself (`i < MAX_ARGS`, `arg_count < MAX_ARGS - 1`, `i <= pipe_count`) the fuel
  is that bound; elsewhere the caller passes the number of passes the loop can make
  (the length of the string, of the vector, of the job table), and the section on fuel
  shows that the loops end because their own condition fails.
-/

namespace MyShell

/-! ## Constants and strings -/

/-- The text of a C string, without its terminating NUL. -/
abbrev Str := List Char

/-- The bytes of a character buffer. -/
abbrev Buf := List Char

/-- The NUL character that ends a C string. -/
def NUL : Char := Char.ofNat 0

/-- Mirror of `#define MAX_COMMAND_LENGTH 1024`. -/
def MAX_COMMAND_LENGTH : Nat := 1024

/-- Mirror of `#define MAX_ARGS 64`. -/
def MAX_ARGS : Nat := 64

/-- Mirror of `#define MAX_JOBS 100`. -/
def MAX_JOBS : Nat := 100

/-- The byte `b[i]`; past the end of the list it is the terminating NUL. -/
def byteAt (b : Buf) (i : Nat) : Char := b.getD i NUL

/-- The C string that starts at offset `off` of `b`: the bytes up to the first NUL. -/
def cstr (b : Buf) (off : Nat) : Str := (b.drop off).takeWhile (fun c => c != NUL)

/-- Mirror of `strlen(command)` for the string at the start of the buffer. -/
def strlen (b : Buf) : Nat := (cstr b 0).length

/-- Mirror of `strcspn(command, "\n")`: the length of the initial run free of newlines. -/
def strcspn_newline (b : Buf) : Nat :=
  (b.takeWhile (fun c => c != NUL && c != '\n')).length

/-- The result of one `strtok(..., " ")` call: the buffer (a NUL may have been written
over the delimiter that ends the token), the token returned, and the position saved
for the next call. -/
structure StrtokResult where
  buf : Buf
  token : Option Nat
  save : Nat
deriving DecidableEq, Repr

/-- Mirror of `strtok(s, " ")` resuming at offset `p`: skip the leading spaces; at the end
of the string return `NULL`; otherwise the token runs up to the next space or NUL, a space
is overwritten with NUL and the scan resumes after it. -/
def strtok (b : Buf) (p : Nat) : StrtokResult :=
  let start := p + ((b.drop p).takeWhile (fun c => c == ' ')).length
  if byteAt b start = NUL then
    { buf := b, token := none, save := start }
  else
    let stop := start + ((b.drop start).takeWhile (fun c => c != ' ' && c != NUL)).length
    if byteAt b stop = NUL then
      { buf := b, token := some start, save := stop }
    else
      { buf := b.set stop NUL, token := some start, save := stop + 1 }

/-- Mirror of `strcpy(dst, src)` inside one buffer: the string at `src` and its NUL are
written from offset `dst` on.  At the only call site `dst` is the start of the buffer and
`src` a later token.  When the two regions overlap ISO C leaves the result open; the
model is the front-to-back copy of a byte-wise `strcpy`, which reads every source byte
before it can be overwritten.  No property below is stated on an overlapping copy. -/
def strcpy (b : Buf) (dst src : Nat) : Buf :=
  let s := cstr b src ++ [NUL]
  b.take dst ++ s ++ b.drop (dst + s.length)

/-! ## Diagnostics, events, outcomes -/

/-- The lines the shell prints; the data of a format string are the arguments. -/
inductive Msg where
  /-- "Error: Invalid command arguments" -/
  | invalid_arguments
  /-- "Error: Empty command" -/
  | empty_command
  /-- "Error: Invalid command length (must be 1-1024 characters)" -/
  | invalid_command_length
  /-- "Error: Invalid characters in command name" -/
  | invalid_characters
  /-- "Error: Argument too long" -/
  | argument_too_long
  /-- "Error: cd takes at most one argument" -/
  | cd_too_many
  /-- "Error: %s command does not take arguments" -/
  | no_arguments_allowed (name : Str)
  /-- "Error: Invalid pipe placement" -/
  | invalid_pipe_placement
  /-- "Error: Missing file name for input redirection" -/
  | missing_redirect_file
  /-- "cd: %s: No such file or directory" -/
  | cd_no_such_file (path : Str)
  /-- "cd: %s: Not a directory" -/
  | cd_not_a_directory (path : Str)
  /-- "cd: Unable to find home directory" -/
  | cd_no_home
  /-- perror("cd") -/
  | cd_perror
  /-- "[%d] %d" printed by add_background_job: job index, pid -/
  | job_added (index : Nat) (pid : Int)
  /-- "Maximum number of background jobs reached" -/
  | max_jobs_reached
  /-- "Background Jobs:" -/
  | jobs_header
  /-- "[%d] %d %s" printed by list_background_jobs: index, pid, command -/
  | job_line (index : Nat) (pid : Int) (command : Str)
  /-- "Warning: %d background jobs are stil runing." and the hint line after it -/
  | jobs_still_running (count : Nat)
  /-- perror("Error: Failed to create new process") -/
  | fork_failed
  /-- "Error: Cannot run background job with input redirection" -/
  | background_with_redirect
  /-- perror("Error: Failed to redirect background job input") -/
  | dev_null_failed
  /-- "Error: Failed to open %s for input redirection: %s" -/
  | open_failed (path : Str)
  /-- "Error: Failed to duplicate file descriptor for input: %s" -/
  | dup_failed
  /-- The message after a failed execvp in execute_command, by errno -/
  | exec_failed (name : Str) (errno : Nat)
  /-- "Command exited with status %d" -/
  | exited_with_status (status : Nat)
  /-- "Command terminated by signal %d" -/
  | terminated_by_signal (signal : Nat)
  /-- perror("Error: Failed to create pipe") -/
  | pipe_failed
  /-- perror("Error: Failed to duplicate pipe write descriptor (dup2)") -/
  | dup_write_failed
  /-- perror("Error: Failed to duplicate pipe read descriptor (dup2)") -/
  | dup_read_failed
  /-- perror("Error: Failed to execute command (execvp)") -/
  | pipe_exec_failed
  /-- perror("Error: Failed to create new process (fork)") -/
  | pipeline_fork_failed
deriving DecidableEq, Repr

/-- What a process does that is visible outside it, in program order. -/
inductive Event where
  /-- A line on standard output. -/
  | out (m : Msg)
  /-- A line on standard error. -/
  | err (m : Msg)
  /-- A `pipe()` call and what it returned. -/
  | pipe (ret : Int)
  /-- A `fork()` call: the argument vector the new process is forked to run, and the
  value `fork` returned in the process that is followed. -/
  | fork (command_args : List Str) (ret : Int)
  /-- `kill(pid, sig)`. -/
  | kill (pid : Int) (sig : Nat)
  /-- `waitpid(pid, &status, 0)`. -/
  | waitpid (pid : Int)
  /-- `wait(&status)`. -/
  | wait
  /-- `open(path, O_RDONLY)` and the descriptor returned. -/
  | open_rdonly (path : Str) (fd : Int)
  /-- `open("/dev/null", O_RDWR)` and the descriptor returned. -/
  | open_dev_null (fd : Int)
  /-- `dup2(oldfd, newfd)`. -/
  | dup2 (oldfd newfd : Int)
  /-- `close(fd)`. -/
  | close (fd : Int)
  /-- `execvp(file, argv)`. -/
  | execvp (file : Str) (argv : List Str)
  /-- `stat(path, ...)`. -/
  | stat (path : Str)
  /-- `chdir(path)`. -/
  | chdir (path : Str)
deriving DecidableEq, Repr

/-- How a call ends for the process that runs it. -/
inductive Outcome where
  /-- The function returned this value to its caller. -/
  | returned (value : Int)
  /-- The process called `exit(code)`. -/
  | exited (code : Int)
  /-- `execvp` succeeded: the process now runs `file` with `argv`. -/
  | replaced (file : Str) (argv : List Str)
  /-- The C standard gives the execution no meaning from here on. -/
  | undefined
deriving DecidableEq, Repr

/-- How a waited-for child ended, as `WIFEXITED`/`WIFSIGNALED` read the status. -/
inductive WaitStatus where
  | exited (status : Nat)
  | signaled (signal : Nat)
  | other
deriving DecidableEq, Repr

/-- The answers of the operating system. -/
structure Env where
  /-- What the `k`-th `pipe()` call of a pipeline returns. -/
  pipe_ret : Nat → Int
  /-- The descriptor stored in `pipefds[k]`. -/
  pipefds : Nat → Int
  /-- What the `k`-th `fork()` call of a command returns in the process followed:
  positive in the parent, zero in the child, negative on failure. -/
  fork_ret : Nat → Int
  /-- What `dup2(oldfd, newfd)` returns. -/
  dup2_ret : Int → Int → Int
  /-- What `open(path, O_RDONLY)` returns. -/
  open_ret : Str → Int
  /-- What `open("/dev/null", O_RDWR)` returns. -/
  dev_null_ret : Int
  /-- Whether `execvp(file, ...)` fails, and with which errno; `none` is success. -/
  exec_errno : Str → Option Nat
  /-- The status `waitpid` stores for a child. -/
  wait_status : Int → WaitStatus
  /-- Whether `stat(path)` succeeds. -/
  stat_ok : Str → Bool
  /-- Whether the path is a directory (`S_ISDIR`). -/
  is_dir : Str → Bool
  /-- `getenv("HOME")`. -/
  home : Option Str
  /-- Whether `chdir(path)` succeeds. -/
  chdir_ok : Str → Bool

/-- The errno values `execute_command` tells apart. -/
def EACCES : Nat := 13

/-- The errno of a missing file. -/
def ENOENT : Nat := 2

/-- Mirror of `SIGTERM`. -/
def SIGTERM : Nat := 15

/-! ## parse_command -/

/-- What `parse_command` leaves behind: its return value, the command buffer, the cells
of `args` it wrote (offsets into the buffer), and the two out-parameters. -/
structure ParseOut where
  ret : Int
  command : Buf
  args : List (Option Nat)
  background : Int
  redirect_input : Int
  diag : List Event
deriving DecidableEq, Repr

/-- The loop `while (strlen(command) > 0 && command[strlen(command) - 1] == ' ')`, which
cuts one trailing space per pass.  Every pass shortens the string by one, so
`strlen command` passes are enough fuel. -/
def trim_trailing : Nat → Buf → Buf
  | 0, command => command
  | fuel + 1, command =>
    if strlen command > 0 ∧ byteAt command (strlen command - 1) = ' ' then
      trim_trailing fuel (command.set (strlen command - 1) NUL)
    else command

/-- The loop `while (token != NULL && arg_count < MAX_ARGS - 1)`: store the token, ask
`strtok` for the next.  `fuel` is `MAX_ARGS - 1 - arg_count`. -/
def tokenize_loop : Nat → Buf → Option Nat → Nat → List (Option Nat) → Buf × List (Option Nat)
  | 0, b, _, _, args => (b, args)
  | _ + 1, b, none, _, args => (b, args)
  | fuel + 1, b, some t, save, args =>
    let r := strtok b save
    tokenize_loop fuel r.buf r.token r.save (args ++ [some t])

/-- The cell `args[i]`. -/
def argAt (args : List (Option Nat)) (i : Nat) : Option Nat := (args.getD i none)

/-- The loop that validates pipe placement, from index `i` on: `true` when some "|" token
is at index 0 or is followed by `NULL`. -/
def bad_pipe_placement : Nat → Buf → List (Option Nat) → Nat → Bool
  | 0, _, _, _ => false
  | fuel + 1, b, args, i =>
    match argAt args i with
    | none => false
    | some t =>
      if cstr b t = ['|'] ∧ (i = 0 ∨ argAt args (i + 1) = none) then true
      else bad_pipe_placement fuel b args (i + 1)

/-- The loop that detects input redirection, from index `i` on, as the tail of
`parse_command`: at the first "<" token it sets the flag, fails when no token follows,
and otherwise clears both cells and copies the file name to the start of the buffer
with `strcpy(command, args[i+1])`. -/
def detect_redirect : Nat → Buf → List (Option Nat) → Nat → Int → List Event → ParseOut
  | 0, b, args, _, background, diag =>
    { ret := 1, command := b, args := args, background := background,
      redirect_input := 0, diag := diag }
  | fuel + 1, b, args, i, background, diag =>
    match argAt args i with
    | none =>
      { ret := 1, command := b, args := args, background := background,
        redirect_input := 0, diag := diag }
    | some t =>
      if cstr b t = ['<'] then
        match argAt args (i + 1) with
        | none =>
          { ret := 0, command := b, args := args, background := background,
            redirect_input := 1, diag := diag ++ [Event.err Msg.missing_redirect_file] }
        | some f =>
          { ret := 1, command := strcpy b 0 f,
            args := (args.set i none).set (i + 1) none,
            background := background, redirect_input := 1, diag := diag }
      else detect_redirect fuel b args (i + 1) background diag

/-- The second half of `parse_command`, from the check for an empty command on: tokenise
the trimmed string, validate the pipe placement, detect the redirection. -/
def tokenize_and_check (command : Buf) (background redirect_input : Int) : ParseOut :=
  -- Check for empty command
  if strlen command = 0 then
    { ret := 0, command := command, args := [], background := background,
      redirect_input := redirect_input, diag := [] }
  else
    -- Tokenize command
    let r := strtok command 0
    let tk := tokenize_loop (MAX_ARGS - 1) r.buf r.token r.save []
    let b := tk.1
    let args := tk.2 ++ [none]
    -- Validate pipe placement
    if bad_pipe_placement args.length b args 0 then
      { ret := 0, command := b, args := args, background := background,
        redirect_input := redirect_input,
        diag := [Event.err Msg.invalid_pipe_placement] }
    else
      -- Detect input redirection, if any
      detect_redirect args.length b args 0 background []

/-- Mirror of `parse_command(command, args, &background, &redirect_input)`.
`redirect_input` is the value the out-parameter holds on entry: it is only assigned
after the pipe check.  The result is `none` when the string is empty after the newline
is cut, where `command[strlen(command) - 1]` reads outside the buffer. -/
def parse_command (command : Buf) (redirect_input : Int) : Option ParseOut :=
  -- Remove newline
  let c1 := command.set (strcspn_newline command) NUL
  if strlen c1 = 0 then none
  else
    -- Check for background job
    let amp := decide (byteAt c1 (strlen c1 - 1) = '&')
    let background : Int := if amp then 1 else 0
    let c2 := if amp then c1.set (strlen c1 - 1) NUL else c1
    -- Trim trailing whitespace
    let c3 := trim_trailing (strlen c2) c2
    some (tokenize_and_check c3 background redirect_input)

/-- The vector `args` as the callee reads it: every pointer replaced by the string it
points to in the command buffer. -/
def resolve (b : Buf) (args : List (Option Nat)) : List (Option Str) :=
  args.map (fun a => a.map (cstr b))

/-! ## The job table -/

/-- Mirror of the `Job` struct.  `command` is the field read as a C string. -/
structure Job where
  pid : Int
  command : Str
  status : Int
deriving DecidableEq, Repr

/-- A cell of the zero-initialised global array. -/
def Job.zero : Job := { pid := 0, command := [], status := 0 }

/-- The globals of the shell: `foreground_pid`, the array `background_jobs[MAX_JOBS]`
(all of its cells) and `job_count`. -/
structure ShellState where
  foreground_pid : Int
  background_jobs : List Job
  job_count : Nat
deriving DecidableEq, Repr

/-- The globals as the program starts. -/
def ShellState.init : ShellState :=
  { foreground_pid := -1, background_jobs := List.replicate MAX_JOBS Job.zero, job_count := 0 }

/-- The tracked records: the cells `background_jobs[0 .. job_count - 1]`. -/
def ShellState.tracked (st : ShellState) : List Job := st.background_jobs.take st.job_count

/-- Mirror of `add_background_job(pid, command)`.  `strncpy` with bound
`MAX_COMMAND_LENGTH - 1` stores at most that many characters and pads with NUL; the
last byte of the field is never written and stays zero. -/
def add_background_job (st : ShellState) (pid : Int) (command : Str) :
    ShellState × List Event :=
  if st.job_count < MAX_JOBS then
    ({ st with
        background_jobs := st.background_jobs.set st.job_count
          { pid := pid, command := command.take (MAX_COMMAND_LENGTH - 1), status := 0 }
        job_count := st.job_count + 1 },
     [Event.out (Msg.job_added (st.job_count + 1) pid)])
  else
    (st, [Event.err Msg.max_jobs_reached])

/-- The inner loop `for (j = i; j < job_count - 1; j++) background_jobs[j] =
background_jobs[j + 1]`, from index `j` on. -/
def shift_jobs : Nat → List Job → Nat → Nat → List Job
  | 0, jobs, _, _ => jobs
  | fuel + 1, jobs, job_count, j =>
    if j < job_count - 1 then
      shift_jobs fuel (jobs.set j (jobs.getD (j + 1) Job.zero)) job_count (j + 1)
    else jobs

/-- The outer loop of `remove_background_job`, from index `i` on. -/
def remove_loop : Nat → ShellState → Int → Nat → ShellState
  | 0, st, _, _ => st
  | fuel + 1, st, pid, i =>
    if i < st.job_count then
      if (st.background_jobs.getD i Job.zero).pid = pid then
        { st with
          background_jobs := shift_jobs (st.job_count - i) st.background_jobs st.job_count i
          job_count := st.job_count - 1 }
      else remove_loop fuel st pid (i + 1)
    else st

/-- Mirror of `remove_background_job(pid)`. -/
def remove_background_job (st : ShellState) (pid : Int) : ShellState :=
  remove_loop st.job_count st pid 0

/-- Mirror of `list_background_jobs()`. -/
def list_background_jobs (st : ShellState) : List Event :=
  Event.out Msg.jobs_header ::
    (List.range st.job_count).map (fun i =>
      let job := st.background_jobs.getD i Job.zero
      Event.out (Msg.job_line (i + 1) job.pid job.command))

/-! ## validate_command and count_pipes -/

/-- A `char **` with every pointer resolved; `none` is `NULL`, and the end of the list
reads as `NULL` too. -/
abbrev Argv := List (Option Str)

/-- The cell `args[i]`. -/
def Argv.at (args : Argv) (i : Nat) : Option Str := args.getD i none

/-- The strings of the vector up to the first `NULL`, as `execvp` reads them. -/
def Argv.strings : Argv → List Str
  | [] => []
  | none :: _ => []
  | some a :: rest => a :: Argv.strings rest

/-- Mirror of `isalnum` in the "C" locale, the one the shell runs in: ASCII letters and
digits; every other byte is rejected. -/
def isalnum (c : Char) : Bool := c.isAlphanum

/-- The test of step 4 of `validate_command` on one character. -/
def valid_name_char (c : Char) : Bool := isalnum c || c == '_' || c == '-' || c == '.'

/-- Step 5 of `validate_command`: the loop over `args[i]`, `i < MAX_ARGS`, from index `i`
on; `none` when an argument is too long, otherwise the argument count. -/
def count_arguments : Nat → Argv → Nat → Nat → Option Nat
  | 0, _, _, arg_count => some arg_count
  | fuel + 1, args, i, arg_count =>
    match args.at i with
    | none => some arg_count
    | some a =>
      if a.length > MAX_COMMAND_LENGTH then none
      else count_arguments fuel args (i + 1) (arg_count + 1)

/-- Mirror of `validate_command(args)`: the return value and the diagnostic printed. -/
def validate_command (args : Option Argv) : Int × List Event :=
  match args with
  | none => (0, [Event.err Msg.invalid_arguments])
  | some args =>
    match args.at 0 with
    | none => (0, [Event.err Msg.empty_command])
    | some name =>
      if name.length = 0 ∨ name.length > MAX_COMMAND_LENGTH then
        (0, [Event.err Msg.invalid_command_length])
      else if name.any (fun c => !valid_name_char c) then
        (0, [Event.err Msg.invalid_characters])
      else
        match count_arguments MAX_ARGS args 0 0 with
        | none => (0, [Event.err Msg.argument_too_long])
        | some arg_count =>
          if name = "cd".toList ∧ arg_count > 2 then
            (0, [Event.err Msg.cd_too_many])
          else if (name = "exit".toList ∨ name = "jobs".toList) ∧ arg_count > 1 then
            (0, [Event.err (Msg.no_arguments_allowed name)])
          else (1, [])

/-- The loop of `count_pipes`: the "|" tokens before the first `NULL`. -/
def count_pipes_loop : Argv → Nat
  | [] => 0
  | none :: _ => 0
  | some a :: rest => (if a = ['|'] then 1 else 0) + count_pipes_loop rest

/-- Mirror of `count_pipes(args)`; the vector `*args` may be `NULL`. -/
def count_pipes (args : Option Argv) : Nat :=
  match args with
  | none => 0
  | some args => count_pipes_loop args

/-! ## execute_command -/

/-- What a call leaves behind: how it ended, the globals, and the events in order. -/
structure Result where
  outcome : Outcome
  state : ShellState
  trace : List Event
deriving DecidableEq, Repr

/-- Mirror of `builtin_cd(args)`. -/
def builtin_cd (env : Env) (args : Argv) : List Event :=
  match args.at 1 with
  | some path =>
    if !env.stat_ok path then
      [Event.stat path, Event.err (Msg.cd_no_such_file path)]
    else if !env.is_dir path then
      [Event.stat path, Event.err (Msg.cd_not_a_directory path)]
    else if !env.chdir_ok path then
      [Event.stat path, Event.chdir path, Event.err Msg.cd_perror]
    else [Event.stat path, Event.chdir path]
  | none =>
    match env.home with
    | none => [Event.err Msg.cd_no_home]
    | some home_dir => [Event.chdir home_dir]

/-- The child branch of `execute_command` (`pid == 0`). -/
def execute_child (env : Env) (name : Str) (args : Argv) (background redirect_input : Int) :
    Outcome × List Event :=
  let exec : List Event → Outcome × List Event := fun tr =>
    match env.exec_errno name with
    | none => (Outcome.replaced name args.strings, tr ++ [Event.execvp name args.strings])
    | some e =>
      (Outcome.exited 127,
       tr ++ [Event.execvp name args.strings, Event.err (Msg.exec_failed name e)])
  if background ≠ 0 then
    if redirect_input ≠ 0 then
      (Outcome.exited 1, [Event.err Msg.background_with_redirect])
    else if env.dev_null_ret = -1 then
      (Outcome.exited 1, [Event.open_dev_null env.dev_null_ret, Event.err Msg.dev_null_failed])
    else
      exec [Event.open_dev_null env.dev_null_ret, Event.dup2 env.dev_null_ret 0,
            Event.close env.dev_null_ret]
  else if redirect_input ≠ 0 then
    let fd := env.open_ret name
    if fd = -1 then
      (Outcome.exited 1, [Event.open_rdonly name fd, Event.err (Msg.open_failed name)])
    else if env.dup2_ret fd 0 = -1 then
      (Outcome.exited 1,
       [Event.open_rdonly name fd, Event.dup2 fd 0, Event.err Msg.dup_failed, Event.close fd])
    else
      exec [Event.open_rdonly name fd, Event.dup2 fd 0, Event.close fd]
  else exec []

/-- The status report of the parent after `waitpid`. -/
def report_status : WaitStatus → List Event
  | WaitStatus.exited status =>
    if status ≠ 0 then [Event.err (Msg.exited_with_status status)] else []
  | WaitStatus.signaled signal => [Event.err (Msg.terminated_by_signal signal)]
  | WaitStatus.other => []

/-- Mirror of `execute_command(&args, background, redirect_input)`. -/
def execute_command (env : Env) (st : ShellState) (args : Option Argv)
    (background redirect_input : Int) : Result :=
  let v := validate_command args
  if v.1 = 0 then { outcome := Outcome.returned (-1), state := st, trace := v.2 }
  else
    match args with
    | none => { outcome := Outcome.undefined, state := st, trace := v.2 }
    | some args =>
      match args.at 0 with
      | none => { outcome := Outcome.undefined, state := st, trace := v.2 }
      | some name =>
        if name = "exit".toList then
          if args.at 1 = some "-f".toList ∨ args.at 1 = some "--force".toList then
            { outcome := Outcome.exited 0, state := st,
              trace := st.tracked.map (fun job => Event.kill job.pid SIGTERM) }
          else if st.job_count > 0 then
            { outcome := Outcome.returned (-1), state := st,
              trace := [Event.err (Msg.jobs_still_running st.job_count)] }
          else { outcome := Outcome.exited 0, state := st, trace := [] }
        else if name = "cd".toList then
          { outcome := Outcome.returned 0, state := st, trace := builtin_cd env args }
        else if name = "jobs".toList then
          { outcome := Outcome.returned 0, state := st, trace := list_background_jobs st }
        else
          let pid := env.fork_ret 0
          let forked := Event.fork args.strings pid
          if pid < 0 then
            { outcome := Outcome.returned (-1), state := st,
              trace := [forked, Event.err Msg.fork_failed] }
          else if pid = 0 then
            let c := execute_child env name args background redirect_input
            { outcome := c.1, state := st, trace := forked :: c.2 }
          else if background = 0 then
            { outcome := Outcome.returned 0, state := { st with foreground_pid := -1 },
              trace := [forked, Event.waitpid pid] ++ report_status (env.wait_status pid) }
          else
            let a := add_background_job st pid name
            { outcome := Outcome.returned 0, state := a.1, trace := forked :: a.2 }

/-! ## execute_piped_command -/

/-- The loop that extracts one command segment: walk `flat_args` from index `j` (the list
given is `flat_args` from that index on) up to the next "|" or `NULL`; the result is the
segment copied into `command_args` and the index `j` where the loop stopped. -/
def extract_segment : Argv → Nat → List Str × Nat
  | [], j => ([], j)
  | none :: _, j => ([], j)
  | some a :: rest, j =>
    if a = ['|'] then ([], j)
    else ((a :: (extract_segment rest (j + 1)).1), (extract_segment rest (j + 1)).2)

/-- The loop that creates the pipes, from index `i` on: `false` when a `pipe()` fails. -/
def create_pipes (env : Env) : Nat → Nat → List Event → Bool × List Event
  | 0, _, tr => (true, tr)
  | fuel + 1, i, tr =>
    if env.pipe_ret i < 0 then
      (false, tr ++ [Event.pipe (env.pipe_ret i), Event.err Msg.pipe_failed])
    else create_pipes env fuel (i + 1) (tr ++ [Event.pipe (env.pipe_ret i)])

/-- The calls `close(pipefds[j])` for `j < 2 * pipe_count`. -/
def close_pipes (env : Env) (pipe_count : Nat) : List Event :=
  (List.range (2 * pipe_count)).map (fun j => Event.close (env.pipefds j))

/-- The child branch of stage `i` of `execute_piped_command` (`pid == 0`).  With an empty
segment `command_args[0]` is `NULL` and `strcmp` reads through it. -/
def pipeline_child (env : Env) (st : ShellState) (pipe_count i : Nat)
    (command_args : List Str) : Outcome × List Event :=
  match command_args with
  | [] => (Outcome.undefined, [])
  | name :: _ =>
    if name = "jobs".toList then (Outcome.exited 0, list_background_jobs st)
    else
      let wr := env.pipefds (i * 2 + 1)
      let rd := env.pipefds ((i - 1) * 2)
      let t1 := if i < pipe_count then [Event.dup2 wr 1] else []
      if i < pipe_count ∧ env.dup2_ret wr 1 < 0 then
        (Outcome.exited 1, t1 ++ [Event.err Msg.dup_write_failed])
      else
        let t2 := if i > 0 then t1 ++ [Event.dup2 rd 0] else t1
        if i > 0 ∧ env.dup2_ret rd 0 < 0 then
          (Outcome.exited 1, t2 ++ [Event.err Msg.dup_read_failed])
        else
          let t3 := t2 ++ close_pipes env pipe_count ++ [Event.execvp name command_args]
          match env.exec_errno name with
          | none => (Outcome.replaced name command_args, t3)
          | some _ => (Outcome.exited 1, t3 ++ [Event.err Msg.pipe_exec_failed])

/-- The loop `for (i = 0; i <= pipe_count; i++)` that forks the stages, from stage `i`
on, with `fuel` stages left.  The first component is `none` when the loop ran to its end
in the parent, and otherwise how the function ended inside the loop. -/
def fork_stages (env : Env) (st : ShellState) (flat_args : Argv) (pipe_count : Nat) :
    Nat → Nat → Nat → List Event → Option Outcome × List Event
  | 0, _, _, tr => (none, tr)
  | fuel + 1, i, command_start, tr =>
    let seg := extract_segment (flat_args.drop command_start) command_start
    let pid := env.fork_ret i
    let tr1 := tr ++ [Event.fork seg.1 pid]
    if pid = 0 then
      let c := pipeline_child env st pipe_count i seg.1
      (some c.1, tr1 ++ c.2)
    else if pid < 0 then
      (some (Outcome.returned (-1)), tr1 ++ [Event.err Msg.pipeline_fork_failed])
    else fork_stages env st flat_args pipe_count fuel (i + 1) (seg.2 + 1) tr1

/-- Mirror of `execute_piped_command(&args)`. -/
def execute_piped_command (env : Env) (st : ShellState) (args : Option Argv) : Result :=
  let flat_args : Argv := args.getD []
  let pipe_count := count_pipes args
  if pipe_count = 0 then { outcome := Outcome.returned 0, state := st, trace := [] }
  else
    -- Create pipe file descriptors
    let p := create_pipes env pipe_count 0 []
    if !p.1 then { outcome := Outcome.returned (-1), state := st, trace := p.2 }
    else
      -- Execute piped commands
      let f := fork_stages env st flat_args pipe_count (pipe_count + 1) 0 0 p.2
      match f.1 with
      | some o => { outcome := o, state := st, trace := f.2 }
      | none =>
        -- Parent closes the descriptors and waits for all children
        { outcome := Outcome.returned 0, state := st,
          trace := f.2 ++ close_pipes env pipe_count ++
            List.replicate (pipe_count + 1) Event.wait }

/-! ## The main loop -/

/-- One pass of the `while (1)` loop of `main`, after `fgets` stored a line in `command`:
skip a line of at most one character, parse, and hand the vector to
`execute_piped_command` when it holds a "|" and to `execute_command` otherwise.
`redirect_input` is what the local variable holds before the pass.  The outcome
`returned` means that the loop goes on with the next line. -/
def main_iteration (env : Env) (st : ShellState) (command : Buf) (redirect_input : Int) :
    Result :=
  if strlen command ≤ 1 then { outcome := Outcome.returned 0, state := st, trace := [] }
  else
    match parse_command command redirect_input with
    | none => { outcome := Outcome.undefined, state := st, trace := [] }
    | some p =>
      if p.ret = 0 then { outcome := Outcome.returned 0, state := st, trace := p.diag }
      else
        let args_ptr : Option Argv := some (resolve p.command p.args)
        if count_pipes args_ptr > 0 then execute_piped_command env st args_ptr
        else execute_command env st args_ptr p.background p.redirect_input

/-- The number of `fork()` calls in a trace. -/
def forks (tr : List Event) : Nat :=
  (tr.filter (fun e => match e with | Event.fork _ _ => true | _ => false)).length

/-- The number of `pipe()` calls in a trace. -/
def pipes (tr : List Event) : Nat :=
  (tr.filter (fun e => match e with | Event.pipe _ => true | _ => false)).length

/-- The number of `wait()` calls in a trace. -/
def waits (tr : List Event) : Nat :=
  (tr.filter (fun e => match e with | Event.wait => true | _ => false)).length

/-- The argument vectors of the processes forked in a trace, in order. -/
def forked_commands : List Event → List (List Str)
  | [] => []
  | Event.fork command_args _ :: rest => command_args :: forked_commands rest
  | _ :: rest => forked_commands rest

/-- An operating system where every call succeeds, seen from the shell process: `fork`
returns a positive pid and children exit with status 0. -/
def Env.parent : Env :=
  { pipe_ret := fun _ => 0
    pipefds := fun k => 3 + k
    fork_ret := fun k => 1000 + k
    dup2_ret := fun _ newfd => newfd
    open_ret := fun _ => 3
    dev_null_ret := 3
    exec_errno := fun _ => none
    wait_status := fun _ => WaitStatus.exited 0
    stat_ok := fun _ => true
    is_dir := fun _ => true
    home := some "/root".toList
    chdir_ok := fun _ => true }

/-- The same operating system seen from a forked child: `fork` returned 0. -/
def Env.child : Env := { Env.parent with fork_ret := fun _ => 0 }

/-! ## Notions the properties are stated with -/

/-- The characters a command name may hold: ASCII letters, digits, underscore, hyphen
and dot. -/
def allowed_name_char (c : Char) : Prop :=
  ('a' ≤ c ∧ c ≤ 'z') ∨ ('A' ≤ c ∧ c ≤ 'Z') ∨ ('0' ≤ c ∧ c ≤ '9') ∨
    c = '_' ∨ c = '-' ∨ c = '.'

instance (c : Char) : Decidable (allowed_name_char c) := by
  unfold allowed_name_char; infer_instance

/-- A table with three tracked jobs, two of them with pid 7. -/
def three_jobs : ShellState :=
  { foreground_pid := -1
    background_jobs :=
      [{ pid := 5, command := "a".toList, status := 0 },
       { pid := 7, command := "b".toList, status := 0 },
       { pid := 7, command := "c".toList, status := 0 }] ++ List.replicate 97 Job.zero
    job_count := 3 }

/-- The token vector of a pipeline: the stages in order, a "|" token between two
neighbours, and the terminating `NULL`. -/
def pipeline_vector : List (List Str) → Argv
  | [] => [none]
  | [stage] => stage.map some ++ [none]
  | stage :: rest => stage.map some ++ some ['|'] :: pipeline_vector rest

/-- The `pipe()` calls number `i`, `i + 1`, ... of a pipeline, `n` of them. -/
def pipe_events (env : Env) : Nat → Nat → List Event
  | _, 0 => []
  | i, n + 1 => Event.pipe (env.pipe_ret i) :: pipe_events env (i + 1) n

/-- The `fork()` calls of the stages given, the first of them being stage `i`. -/
def fork_events (env : Env) : Nat → List (List Str) → List Event
  | _, [] => []
  | i, stage :: rest => Event.fork stage (env.fork_ret i) :: fork_events env (i + 1) rest

/-- The stages of the pipeline "cat a.txt | grep foo | wc -l". -/
def cat_grep_wc : List (List Str) :=
  [["cat".toList, "a.txt".toList], ["grep".toList, "foo".toList], ["wc".toList, "-l".toList]]

/-- A run of `n` spaces. -/
def spaces (n : Nat) : List Char := List.replicate n ' '

/-- A word of a line: not empty, and free of spaces, newlines and NUL. -/
def is_word (w : Str) : Prop := w ≠ [] ∧ ∀ c ∈ w, c ≠ ' ' ∧ c ≠ '\n' ∧ c ≠ NUL

instance (w : Str) : Decidable (is_word w) := by
  unfold is_word; infer_instance

/-- The text of a line made of words.  A cell `(g, w)` is the word `w` after `g` spaces;
two neighbouring cells are separated by one space more, so that the first word may be
indented and the words after it stand after `g + 1` spaces. -/
def text : List (Nat × Str) → List Char
  | [] => []
  | [(g, w)] => spaces g ++ w
  | (g, w) :: rest => spaces g ++ w ++ ' ' :: text rest

/-- The text after tokenising: the space that ends a word is overwritten with NUL. -/
def ztext : List (Nat × Str) → List Char
  | [] => []
  | [(g, w)] => spaces g ++ w
  | (g, w) :: rest => spaces g ++ w ++ NUL :: ztext rest

/-- The offsets of the words of `text cells` when the text starts at offset `p`. -/
def offsets : Nat → List (Nat × Str) → List Nat
  | _, [] => []
  | p, (g, w) :: rest => (p + g) :: offsets (p + g + w.length + 1) rest

/-- The words of a line. -/
def words (cells : List (Nat × Str)) : List Str := cells.map (fun cell => cell.2)

/-- The end of a C string inside a buffer: the end of the list or a NUL byte. -/
def at_end (z : List Char) : Prop := z = [] ∨ z.head? = some NUL

/-- The NUL bytes that end the command buffer after `parse_command` cut a line with `k`
trailing spaces: one for the newline, one for a trailing ampersand, `k` for the spaces. -/
def padding (k : Nat) (amp : Bool) : List Char :=
  List.replicate k NUL ++ (if amp then [NUL, NUL] else [NUL])

/-- The text of a line: the words, `k` trailing spaces, a trailing ampersand when `amp`
holds, and the newline. -/
def line_of (cells : List (Nat × Str)) (k : Nat) (amp : Bool) : List Char :=
  text cells ++ (spaces k ++ ((if amp then ['&'] else []) ++ ['\n']))

/-- The line "ls -l". -/
def ls_l : List (Nat × Str) := [(0, "ls".toList), (0, "-l".toList)]

/-- The line "sleep 5 &" before its trailing space. -/
def sleep_5_amp : List (Nat × Str) := [(0, "sleep".toList), (0, "5".toList), (0, "&".toList)]

/-- What may follow a token in a line: nothing, a space, or the end of the string. -/
def soft_end (tl : List Char) : Prop :=
  tl = [] ∨ tl.head? = some ' ' ∨ tl.head? = some NUL

/-- The start of a line whose first token is "|": `g` spaces and the pipe character. -/
def pipe_first (g : Nat) : List Char := spaces g ++ ['|']

/-- A line of 64 tokens: 63 times "a", then "|", then the newline. -/
def sixty_three_a_then_pipe : List Char :=
  (List.replicate 63 "a ".toList).flatten ++ "|\n".toList

/-- The line "ls |". -/
def ls_pipe : List (Nat × Str) := [(0, "ls".toList), (0, "|".toList)]

/-! ## The validator and the built-in exit -/

theorem valid_name_char_iff (c : Char) : valid_name_char c = true ↔ allowed_name_char c := by
  unfold valid_name_char allowed_name_char isalnum Char.isAlphanum Char.isAlpha Char.isUpper
    Char.isLower Char.isDigit
  simp only [Bool.or_eq_true, Bool.and_eq_true, decide_eq_true_eq, beq_iff_eq, Char.le_def]
  tauto

theorem validate_bad_name (name : Str) (rest : Argv)
    (h : ∃ c ∈ name, ¬ allowed_name_char c) :
    validate_command (some (some name :: rest)) = (0, [Event.err Msg.invalid_command_length]) ∨
    validate_command (some (some name :: rest)) = (0, [Event.err Msg.invalid_characters]) := by
  obtain ⟨c, hc, hbad⟩ := h
  have hany : name.any (fun c => !valid_name_char c) = true := by
    rw [List.any_eq_true]
    refine ⟨c, hc, ?_⟩
    rw [← valid_name_char_iff] at hbad
    simpa using hbad
  unfold validate_command
  simp only [Argv.at, List.getD_cons_zero]
  by_cases hl : name.length = 0 ∨ name.length > MAX_COMMAND_LENGTH
  · left; rw [if_pos hl]
  · right; rw [if_neg hl, if_pos hany]

/-- C2: a command name holding a character outside ASCII letters, digits, underscore,
hyphen and dot makes validate_command return 0, and execute_command then returns -1
with no fork and with the job table and the foreground pid as they were. -/
theorem C2_invalid_name_rejected (env : Env) (st : ShellState) (name : Str) (rest : Argv)
    (background redirect_input : Int) (h : ∃ c ∈ name, ¬ allowed_name_char c) :
    (validate_command (some (some name :: rest))).1 = 0 ∧
    (execute_command env st (some (some name :: rest)) background redirect_input).outcome
      = Outcome.returned (-1) ∧
    (execute_command env st (some (some name :: rest)) background redirect_input).state = st ∧
    forks (execute_command env st (some (some name :: rest)) background redirect_input).trace
      = 0 := by
  rcases validate_bad_name name rest h with hv | hv <;>
    simp [execute_command, hv, forks]

theorem C2_invalid_name_rejected_witness :
    (∃ c ∈ "l$".toList, ¬ allowed_name_char c) ∧
    (validate_command (some [some "l$".toList, some "-l".toList, none])).1 = 0 ∧
    (execute_command Env.parent ShellState.init
      (some [some "l$".toList, some "-l".toList, none]) 0 0).outcome = Outcome.returned (-1) ∧
    (execute_command Env.parent ShellState.init
      (some [some "l$".toList, some "-l".toList, none]) 0 0).state = ShellState.init ∧
    forks (execute_command Env.parent ShellState.init
      (some [some "l$".toList, some "-l".toList, none]) 0 0).trace = 0 :=
  ⟨⟨'$', by decide, by decide⟩,
   C2_invalid_name_rejected Env.parent ShellState.init "l$".toList [some "-l".toList, none] 0 0
    ⟨'$', by decide, by decide⟩⟩

/-- C3: on the vector exit -f (and exit --force) execute_command returns -1 to the main
loop in every state: validate_command rejects the vector because exit has an argument,
so no SIGTERM is sent and the shell does not terminate. -/
theorem C3_exit_force_is_rejected (env : Env) (st : ShellState)
    (background redirect_input : Int) :
    execute_command env st (some [some "exit".toList, some "-f".toList, none])
        background redirect_input
      = { outcome := Outcome.returned (-1), state := st,
          trace := [Event.err (Msg.no_arguments_allowed "exit".toList)] } ∧
    execute_command env st (some [some "exit".toList, some "--force".toList, none])
        background redirect_input
      = { outcome := Outcome.returned (-1), state := st,
          trace := [Event.err (Msg.no_arguments_allowed "exit".toList)] } := by
  have h1 : validate_command (some [some "exit".toList, some "-f".toList, none])
      = (0, [Event.err (Msg.no_arguments_allowed "exit".toList)]) := by decide
  have h2 : validate_command (some [some "exit".toList, some "--force".toList, none])
      = (0, [Event.err (Msg.no_arguments_allowed "exit".toList)]) := by decide
  constructor
  · simp only [execute_command, h1, if_true]
  · simp only [execute_command, h2, if_true]

/-- C4: with fewer than MAX_JOBS records, add_background_job keeps the tracked records in
place, appends one Running record with the given pid, raises job_count by one and prints
the new job_count with the pid. -/
theorem C4_add_background_job (st : ShellState) (pid : Int) (command : Str)
    (hsize : st.background_jobs.length = MAX_JOBS) (hroom : st.job_count < MAX_JOBS) :
    (add_background_job st pid command).1.tracked
      = st.tracked ++
        [{ pid := pid, command := command.take (MAX_COMMAND_LENGTH - 1), status := 0 }] ∧
    (add_background_job st pid command).1.job_count = st.job_count + 1 ∧
    (add_background_job st pid command).2
      = [Event.out (Msg.job_added ((add_background_job st pid command).1.job_count) pid)] ∧
    (add_background_job st pid command).1.background_jobs.length = MAX_JOBS ∧
    (add_background_job st pid command).1.foreground_pid = st.foreground_pid := by
  have hlt : st.job_count < st.background_jobs.length := by omega
  simp only [add_background_job, hroom, if_true, ShellState.tracked, List.length_set, hsize,
    and_true, true_and]
  rw [List.take_succ, List.set_take, List.set_eq_of_length_le (by simp),
    List.getElem?_set_self hlt]
  rfl

theorem C4_add_background_job_witness :
    ShellState.init.background_jobs.length = MAX_JOBS ∧ ShellState.init.job_count < MAX_JOBS ∧
    (add_background_job ShellState.init 4242 "sleep".toList).1.tracked
      = ShellState.init.tracked ++
        [{ pid := 4242, command := "sleep".toList.take (MAX_COMMAND_LENGTH - 1), status := 0 }] ∧
    (add_background_job ShellState.init 4242 "sleep".toList).1.job_count
      = ShellState.init.job_count + 1 ∧
    (add_background_job ShellState.init 4242 "sleep".toList).2
      = [Event.out (Msg.job_added
          ((add_background_job ShellState.init 4242 "sleep".toList).1.job_count) 4242)] ∧
    (add_background_job ShellState.init 4242 "sleep".toList).1.background_jobs.length
      = MAX_JOBS ∧
    (add_background_job ShellState.init 4242 "sleep".toList).1.foreground_pid
      = ShellState.init.foreground_pid :=
  ⟨by decide, by decide,
   C4_add_background_job ShellState.init 4242 "sleep".toList (by decide) (by decide)⟩

/-! ## The job table: removal -/

theorem shift_jobs_getElem? (fuel : Nat) :
    ∀ (jobs : List Job) (n j : Nat), n ≤ jobs.length → n - 1 - j ≤ fuel →
      ∀ k, (shift_jobs fuel jobs n j)[k]?
        = if j ≤ k ∧ k < n - 1 then jobs[k + 1]? else jobs[k]? := by
  induction fuel with
  | zero =>
    intro jobs n j _ hf k
    have : ¬ (j ≤ k ∧ k < n - 1) := by omega
    simp [shift_jobs, this]
  | succ fuel ih =>
    intro jobs n j hn hf k
    unfold shift_jobs
    by_cases hj : j < n - 1
    · rw [if_pos hj, ih _ n (j + 1) (by simpa using hn) (by omega) k]
      have hj1 : j + 1 < jobs.length := by omega
      have hget : jobs.getD (j + 1) Job.zero = jobs[j + 1] := by
        simp [List.getD_eq_getElem?_getD, List.getElem?_eq_getElem hj1]
      by_cases hk : j + 1 ≤ k ∧ k < n - 1
      · have h2 : j ≤ k ∧ k < n - 1 := by omega
        rw [if_pos hk, if_pos h2, List.getElem?_set_ne (by omega)]
      · rw [if_neg hk]
        by_cases hkj : k = j
        · subst hkj
          have h2 : k ≤ k ∧ k < n - 1 := by omega
          rw [if_pos h2, List.getElem?_set_self (by omega), hget,
            List.getElem?_eq_getElem hj1]
        · have h2 : ¬ (j ≤ k ∧ k < n - 1) := by omega
          rw [if_neg h2, List.getElem?_set_ne (by omega)]
    · rw [if_neg hj]
      have h2 : ¬ (j ≤ k ∧ k < n - 1) := by omega
      rw [if_neg h2]

theorem shift_jobs_length (fuel : Nat) :
    ∀ (jobs : List Job) (n j : Nat), (shift_jobs fuel jobs n j).length = jobs.length := by
  induction fuel with
  | zero => intro jobs n j; rfl
  | succ fuel ih =>
    intro jobs n j
    unfold shift_jobs
    split
    · rw [ih]; simp
    · rfl

theorem take_shift_jobs (jobs : List Job) (n i : Nat) (hn : n ≤ jobs.length) (hi : i < n) :
    (shift_jobs (n - i) jobs n i).take (n - 1) = (jobs.take n).eraseIdx i := by
  apply List.ext_getElem?
  intro k
  rw [List.getElem?_take, shift_jobs_getElem? _ jobs n i hn (by omega), List.getElem?_eraseIdx]
  by_cases hk : k < n - 1
  · rw [if_pos hk]
    by_cases hik : i ≤ k
    · have h1 : i ≤ k ∧ k < n - 1 := ⟨hik, hk⟩
      have h2 : ¬ k < i := by omega
      rw [if_pos h1, if_neg h2, List.getElem?_take, if_pos (by omega)]
    · have h1 : ¬ (i ≤ k ∧ k < n - 1) := by omega
      have h2 : k < i := by omega
      rw [if_neg h1, if_pos h2, List.getElem?_take, if_pos (by omega)]
  · rw [if_neg hk]
    have h2 : ¬ k < i := by omega
    rw [if_neg h2, List.getElem?_take, if_neg (by omega)]

theorem eraseP_at_first (l : List Job) (pid : Int) (i : Nat) (hi : i < l.length)
    (hbefore : ∀ k (hk : k < i), (l[k]).pid ≠ pid) (hat : (l[i]).pid = pid) :
    l.eraseP (fun job => job.pid == pid) = l.eraseIdx i := by
  have hsplit : l = l.take i ++ l[i] :: l.drop (i + 1) := by
    rw [← List.drop_eq_getElem_cons hi, List.take_append_drop]
  have hpre : ∀ b ∈ l.take i, ¬ (fun job : Job => job.pid == pid) b = true := by
    intro b hb
    obtain ⟨k, hk, rfl⟩ := List.getElem_of_mem hb
    have hk2 : k < i := by
      have := hk; simp at this; omega
    simpa [List.getElem_take] using hbefore k hk2
  rw [List.eraseIdx_eq_take_drop_succ]
  conv_lhs => rw [hsplit]
  rw [List.eraseP_append_right _ hpre, List.eraseP_cons_of_pos (by simpa using hat)]

theorem tracked_length (st : ShellState) (hn : st.job_count ≤ st.background_jobs.length) :
    st.tracked.length = st.job_count := by
  simp [ShellState.tracked, hn]

theorem tracked_getElem (st : ShellState) (k : Nat) (hk : k < st.tracked.length) :
    st.tracked[k] = st.background_jobs.getD k Job.zero := by
  have hk2 : k < st.background_jobs.length := by
    have := hk; simp [ShellState.tracked] at this; omega
  simp [ShellState.tracked, List.getElem_take, List.getElem?_eq_getElem hk2]

theorem remove_loop_spec (pid : Int) (st : ShellState)
    (hn : st.job_count ≤ st.background_jobs.length) :
    ∀ (fuel i : Nat), st.job_count ≤ i + fuel →
      (∀ k, k < i → k < st.job_count → (st.background_jobs.getD k Job.zero).pid ≠ pid) →
      (remove_loop fuel st pid i).tracked = st.tracked.eraseP (fun job => job.pid == pid) ∧
      ((∀ job ∈ st.tracked, job.pid ≠ pid) → remove_loop fuel st pid i = st) ∧
      ((∃ job ∈ st.tracked, job.pid = pid) →
        (remove_loop fuel st pid i).job_count + 1 = st.job_count) ∧
      (remove_loop fuel st pid i).foreground_pid = st.foreground_pid ∧
      (remove_loop fuel st pid i).background_jobs.length = st.background_jobs.length := by
  have hlen := tracked_length st hn
  -- when the scan has passed every tracked record, none matches
  have done : ∀ i, st.job_count ≤ i →
      (∀ k, k < i → k < st.job_count → (st.background_jobs.getD k Job.zero).pid ≠ pid) →
      ∀ job ∈ st.tracked, job.pid ≠ pid := by
    intro i hi hall job hjob
    obtain ⟨k, hk, rfl⟩ := List.getElem_of_mem hjob
    rw [tracked_getElem]
    exact hall k (by omega) (by omega)
  intro fuel
  induction fuel with
  | zero =>
    intro i hi hall
    have hno := done i (by omega) hall
    refine ⟨?_, fun _ => rfl, ?_, rfl, rfl⟩
    · simp only [remove_loop]
      rw [List.eraseP_of_forall_not]
      intro a ha; simpa using hno a ha
    · rintro ⟨job, hjob, hp⟩; exact absurd hp (hno job hjob)
  | succ fuel ih =>
    intro i hi hall
    unfold remove_loop
    by_cases hlt : i < st.job_count
    · rw [if_pos hlt]
      by_cases hpid : (st.background_jobs.getD i Job.zero).pid = pid
      · rw [if_pos hpid]
        have hit : i < st.tracked.length := by omega
        have hmem : st.tracked[i] ∈ st.tracked := List.getElem_mem _
        have hat : (st.tracked[i]).pid = pid := by rw [tracked_getElem]; exact hpid
        refine ⟨?_, ?_, ?_, rfl, ?_⟩
        · show (shift_jobs _ _ _ _).take (st.job_count - 1) = _
          rw [take_shift_jobs _ _ _ hn hlt]
          symm
          apply eraseP_at_first st.tracked pid i hit _ hat
          intro k hk
          rw [tracked_getElem]
          exact hall k hk (by omega)
        · intro hno; exact absurd hat (hno _ hmem)
        · intro _; show st.job_count - 1 + 1 = st.job_count; omega
        · show (shift_jobs _ _ _ _).length = _
          rw [shift_jobs_length]
      · rw [if_neg hpid]
        apply ih (i + 1) (by omega)
        intro k hk hkn
        by_cases hki : k = i
        · subst hki; exact hpid
        · exact hall k (by omega) hkn
    · rw [if_neg hlt]
      have hno := done i (by omega) hall
      refine ⟨?_, fun _ => rfl, ?_, rfl, rfl⟩
      · rw [List.eraseP_of_forall_not]
        intro a ha; simpa using hno a ha
      · rintro ⟨job, hjob, hp⟩; exact absurd hp (hno job hjob)

/-- C5: remove_background_job erases the first tracked record with the given pid: the
tracked records afterwards are the ones before with that record erased (contents and
order of the others kept); with no such record the whole state is unchanged, otherwise
job_count drops by exactly one. -/
theorem C5_remove_background_job (st : ShellState) (pid : Int)
    (hsize : st.job_count ≤ st.background_jobs.length) :
    (remove_background_job st pid).tracked
      = st.tracked.eraseP (fun job => job.pid == pid) ∧
    ((∀ job ∈ st.tracked, job.pid ≠ pid) → remove_background_job st pid = st) ∧
    ((∃ job ∈ st.tracked, job.pid = pid) →
      (remove_background_job st pid).job_count + 1 = st.job_count) ∧
    (remove_background_job st pid).foreground_pid = st.foreground_pid ∧
    (remove_background_job st pid).background_jobs.length = st.background_jobs.length :=
  remove_loop_spec pid st hsize st.job_count 0 (by omega) (fun k hk _ => absurd hk (by omega))

theorem C5_remove_background_job_witness :
    three_jobs.job_count ≤ three_jobs.background_jobs.length ∧
    (remove_background_job three_jobs 7).tracked
      = three_jobs.tracked.eraseP (fun job => job.pid == 7) ∧
    ((∀ job ∈ three_jobs.tracked, job.pid ≠ 7) → remove_background_job three_jobs 7 = three_jobs) ∧
    ((∃ job ∈ three_jobs.tracked, job.pid = 7) →
      (remove_background_job three_jobs 7).job_count + 1 = three_jobs.job_count) ∧
    (remove_background_job three_jobs 7).foreground_pid = three_jobs.foreground_pid ∧
    (remove_background_job three_jobs 7).background_jobs.length
      = three_jobs.background_jobs.length :=
  ⟨by decide, C5_remove_background_job three_jobs 7 (by decide)⟩

/-! ## Pipelines -/

theorem count_pipes_loop_stage (stage : List Str) (tail : Argv) (h : ['|'] ∉ stage) :
    count_pipes_loop (stage.map some ++ tail) = count_pipes_loop tail := by
  induction stage with
  | nil => rfl
  | cons a rest ih =>
    have ha : a ≠ ['|'] := fun e => h (by simp [e])
    have hr : ['|'] ∉ rest := fun e => h (by simp [e])
    simp [count_pipes_loop, ha, ih hr]

theorem count_pipes_loop_pipeline (stages : List (List Str))
    (h : ∀ s ∈ stages, ['|'] ∉ s) :
    count_pipes_loop (pipeline_vector stages) = stages.length - 1 := by
  induction stages with
  | nil => rfl
  | cons s rest ih =>
    cases rest with
    | nil =>
      simp only [pipeline_vector]
      rw [count_pipes_loop_stage s _ (h s (by simp))]
      rfl
    | cons s2 rest2 =>
      simp only [pipeline_vector]
      rw [count_pipes_loop_stage s _ (h s (by simp))]
      have := ih (fun t ht => h t (by simp [ht]))
      simp only [count_pipes_loop, if_true]
      rw [this]
      simp only [List.length_cons]
      omega

theorem extract_segment_stage (stage : List Str) (tail : Argv) (j : Nat)
    (h : ['|'] ∉ stage) (htail : tail.head? = some none ∨ tail.head? = some (some ['|'])) :
    extract_segment (stage.map some ++ tail) j = (stage, j + stage.length) := by
  induction stage generalizing j with
  | nil =>
    rcases tail with _ | ⟨t, ts⟩
    · simp at htail
    · rcases htail with ht | ht <;> simp at ht <;> subst ht <;> simp [extract_segment]
  | cons a rest ih =>
    have ha : a ≠ ['|'] := fun e => h (by simp [e])
    have hr : ['|'] ∉ rest := fun e => h (by simp [e])
    show extract_segment (some a :: (rest.map some ++ tail)) j = _
    rw [extract_segment, if_neg ha, ih (j + 1) hr, List.length_cons]
    rw [show j + 1 + rest.length = j + (rest.length + 1) by omega]

theorem pipeline_vector_head (s : List Str) (rest : List (List Str)) :
    pipeline_vector (s :: rest)
      = s.map some ++ (if rest = [] then [none] else some ['|'] :: pipeline_vector rest) := by
  cases rest <;> simp [pipeline_vector]

theorem create_pipes_ok (env : Env) (hpipe : ∀ k, 0 ≤ env.pipe_ret k) (n : Nat) :
    ∀ (i : Nat) (tr : List Event),
      create_pipes env n i tr = (true, tr ++ pipe_events env i n) := by
  induction n with
  | zero => intro i tr; simp [create_pipes, pipe_events]
  | succ n ih =>
    intro i tr
    have h : ¬ env.pipe_ret i < 0 := by have := hpipe i; omega
    simp only [create_pipes, if_neg h, ih, pipe_events, List.append_assoc, List.singleton_append]

theorem fork_stages_parent (env : Env) (st : ShellState) (flat_args : Argv) (pipe_count : Nat)
    (hfork : ∀ k, 0 < env.fork_ret k) (stages : List (List Str))
    (h : ∀ s ∈ stages, ['|'] ∉ s) :
    ∀ (i command_start : Nat) (tr : List Event),
      (stages ≠ [] → flat_args.drop command_start = pipeline_vector stages) →
      fork_stages env st flat_args pipe_count stages.length i command_start tr
        = (none, tr ++ fork_events env i stages) := by
  induction stages with
  | nil => intro i cs tr _; simp [fork_stages, fork_events]
  | cons s rest ih =>
    intro i cs tr hdrop
    have hflat := hdrop (by simp)
    rw [pipeline_vector_head s rest] at hflat
    have hseg : extract_segment (flat_args.drop cs) cs = (s, cs + s.length) := by
      rw [hflat]
      apply extract_segment_stage _ _ _ (h s (by simp))
      by_cases hr : rest = [] <;> simp [hr]
    have h0 : ¬ env.fork_ret i = 0 := by have := hfork i; omega
    have h1 : ¬ env.fork_ret i < 0 := by have := hfork i; omega
    simp only [List.length_cons, fork_stages, hseg, if_neg h0, if_neg h1]
    rw [ih (fun t ht => h t (by simp [ht]))]
    · simp [fork_events]
    · intro hne
      have : flat_args.drop (cs + s.length + 1) = (flat_args.drop cs).drop (s.length + 1) := by
        rw [List.drop_drop, Nat.add_assoc]
      rw [this, hflat, if_neg hne]
      rw [List.drop_append_eq_append_drop]
      simp

theorem forks_append (a b : List Event) : forks (a ++ b) = forks a + forks b := by
  simp [forks, List.filter_append]

theorem pipes_append (a b : List Event) : pipes (a ++ b) = pipes a + pipes b := by
  simp [pipes, List.filter_append]

theorem waits_append (a b : List Event) : waits (a ++ b) = waits a + waits b := by
  simp [waits, List.filter_append]

theorem forked_commands_append (a b : List Event) :
    forked_commands (a ++ b) = forked_commands a ++ forked_commands b := by
  induction a with
  | nil => rfl
  | cons e rest ih => cases e <;> simp [forked_commands, ih]

theorem pipe_events_counts (env : Env) (n : Nat) : ∀ i,
    pipes (pipe_events env i n) = n ∧ forks (pipe_events env i n) = 0 ∧
    waits (pipe_events env i n) = 0 ∧ forked_commands (pipe_events env i n) = [] := by
  induction n with
  | zero => intro i; simp [pipe_events, pipes, forks, waits, forked_commands]
  | succ n ih =>
    intro i
    obtain ⟨h1, h2, h3, h4⟩ := ih (i + 1)
    refine ⟨?_, ?_, ?_, ?_⟩
    · simpa [pipe_events, pipes] using h1
    · simpa [pipe_events, forks] using h2
    · simpa [pipe_events, waits] using h3
    · simpa [pipe_events, forked_commands] using h4

theorem fork_events_counts (env : Env) (stages : List (List Str)) : ∀ i,
    pipes (fork_events env i stages) = 0 ∧ forks (fork_events env i stages) = stages.length ∧
    waits (fork_events env i stages) = 0 ∧ forked_commands (fork_events env i stages) = stages := by
  induction stages with
  | nil => intro i; simp [fork_events, pipes, forks, waits, forked_commands]
  | cons s rest ih =>
    intro i
    obtain ⟨h1, h2, h3, h4⟩ := ih (i + 1)
    refine ⟨?_, ?_, ?_, ?_⟩
    · simpa [fork_events, pipes] using h1
    · simpa [fork_events, forks] using h2
    · simpa [fork_events, waits] using h3
    · simpa [fork_events, forked_commands] using h4

theorem close_pipes_counts (env : Env) (n : Nat) :
    pipes (close_pipes env n) = 0 ∧ forks (close_pipes env n) = 0 ∧
    waits (close_pipes env n) = 0 ∧ forked_commands (close_pipes env n) = [] := by
  unfold close_pipes
  generalize List.range (2 * n) = l
  induction l with
  | nil => simp [pipes, forks, waits, forked_commands]
  | cons a rest ih =>
    obtain ⟨h1, h2, h3, h4⟩ := ih
    refine ⟨?_, ?_, ?_, ?_⟩
    · simp [pipes]
    · simp [forks]
    · simp [waits]
    · simpa [forked_commands] using h4

theorem wait_events_counts (n : Nat) :
    pipes (List.replicate n Event.wait) = 0 ∧ forks (List.replicate n Event.wait) = 0 ∧
    waits (List.replicate n Event.wait) = n ∧
    forked_commands (List.replicate n Event.wait) = [] := by
  induction n with
  | zero => simp [pipes, forks, waits, forked_commands]
  | succ n ih =>
    obtain ⟨h1, h2, h3, h4⟩ := ih
    refine ⟨?_, ?_, ?_, ?_⟩
    · simp [List.replicate_succ, pipes]
    · simp [List.replicate_succ, forks]
    · simp [List.replicate_succ, waits]
    · simpa [List.replicate_succ, forked_commands] using h4

/-- The whole trace of a pipeline in the shell process when every pipe and fork call
succeeds: the pipes, the forks in stage order, the closes, the waits. -/
theorem execute_piped_command_parent (env : Env) (st : ShellState) (stages : List (List Str))
    (hN : 2 ≤ stages.length) (hstage : ∀ s ∈ stages, ['|'] ∉ s)
    (hpipe : ∀ k, 0 ≤ env.pipe_ret k) (hfork : ∀ k, 0 < env.fork_ret k) :
    execute_piped_command env st (some (pipeline_vector stages))
      = { outcome := Outcome.returned 0, state := st,
          trace := pipe_events env 0 (stages.length - 1) ++ fork_events env 0 stages ++
            close_pipes env (stages.length - 1) ++ List.replicate stages.length Event.wait } := by
  have hcount := count_pipes_loop_pipeline stages hstage
  have hne : ¬ (stages.length - 1 = 0) := by omega
  have hlen : stages.length - 1 + 1 = stages.length := by omega
  simp only [execute_piped_command, count_pipes, hcount, if_neg hne,
    create_pipes_ok env hpipe, hlen, Option.getD_some, List.nil_append, Bool.not_true,
    Bool.false_eq_true, if_false]
  rw [fork_stages_parent env st _ _ hfork stages hstage 0 0 _ (fun _ => by simp)]

/-- C9: for a token vector of N >= 2 stages separated by N-1 pipe tokens, when every
pipe() and fork() call succeeds, execute_piped_command creates exactly N-1 pipes, forks
exactly N children, one per stage in stage order, waits exactly N times and returns 0;
no exit status of a stage enters, and the globals are untouched. -/
theorem C9_pipeline_process_counts (env : Env) (st : ShellState) (stages : List (List Str))
    (hN : 2 ≤ stages.length) (hstage : ∀ s ∈ stages, s ≠ [] ∧ ['|'] ∉ s)
    (hpipe : ∀ k, 0 ≤ env.pipe_ret k) (hfork : ∀ k, 0 < env.fork_ret k) :
    (execute_piped_command env st (some (pipeline_vector stages))).outcome
      = Outcome.returned 0 ∧
    pipes (execute_piped_command env st (some (pipeline_vector stages))).trace
      = stages.length - 1 ∧
    forks (execute_piped_command env st (some (pipeline_vector stages))).trace
      = stages.length ∧
    forked_commands (execute_piped_command env st (some (pipeline_vector stages))).trace
      = stages ∧
    waits (execute_piped_command env st (some (pipeline_vector stages))).trace
      = stages.length ∧
    (execute_piped_command env st (some (pipeline_vector stages))).state = st := by
  rw [execute_piped_command_parent env st stages hN (fun s hs => (hstage s hs).2) hpipe hfork]
  obtain ⟨p1, p2, p3, p4⟩ := pipe_events_counts env (stages.length - 1) 0
  obtain ⟨f1, f2, f3, f4⟩ := fork_events_counts env stages 0
  obtain ⟨c1, c2, c3, c4⟩ := close_pipes_counts env (stages.length - 1)
  obtain ⟨w1, w2, w3, w4⟩ := wait_events_counts stages.length
  refine ⟨rfl, ?_, ?_, ?_, ?_, rfl⟩
  · simp only [pipes_append, p1, f1, c1, w1]; omega
  · simp only [forks_append, p2, f2, c2, w2]; omega
  · simp only [forked_commands_append, p4, f4, c4, w4, List.nil_append, List.append_nil]
  · simp only [waits_append, p3, f3, c3, w3]; omega

theorem C9_pipeline_process_counts_witness :
    2 ≤ cat_grep_wc.length ∧ (∀ s ∈ cat_grep_wc, s ≠ [] ∧ ['|'] ∉ s) ∧
    (∀ k, 0 ≤ Env.parent.pipe_ret k) ∧ (∀ k, 0 < Env.parent.fork_ret k) ∧
    (execute_piped_command Env.parent ShellState.init (some (pipeline_vector cat_grep_wc))).outcome
      = Outcome.returned 0 ∧
    pipes (execute_piped_command Env.parent ShellState.init
      (some (pipeline_vector cat_grep_wc))).trace = cat_grep_wc.length - 1 ∧
    forks (execute_piped_command Env.parent ShellState.init
      (some (pipeline_vector cat_grep_wc))).trace = cat_grep_wc.length ∧
    forked_commands (execute_piped_command Env.parent ShellState.init
      (some (pipeline_vector cat_grep_wc))).trace = cat_grep_wc ∧
    waits (execute_piped_command Env.parent ShellState.init
      (some (pipeline_vector cat_grep_wc))).trace = cat_grep_wc.length ∧
    (execute_piped_command Env.parent ShellState.init
      (some (pipeline_vector cat_grep_wc))).state = ShellState.init :=
  ⟨by decide, by decide, fun k => by simp [Env.parent], fun k => by simp [Env.parent]; omega,
   C9_pipeline_process_counts Env.parent ShellState.init cat_grep_wc (by decide) (by decide)
     (fun k => by simp [Env.parent]) (fun k => by simp [Env.parent]; omega)⟩

/-! ## Scanning lemmas -/

theorem takeWhile_run {p : Char → Bool} (xs rest : List Char)
    (hxs : ∀ c ∈ xs, p c = true) (hrest : rest = [] ∨ ∃ y ys, rest = y :: ys ∧ p y = false) :
    (xs ++ rest).takeWhile p = xs := by
  induction xs with
  | nil =>
    rcases hrest with h | ⟨y, ys, h, hy⟩
    · subst h; rfl
    · subst h; simp [List.takeWhile, hy]
  | cons x xs ih =>
    have hx : p x = true := hxs x (by simp)
    simp only [List.cons_append, List.takeWhile_cons, hx, if_true]
    rw [ih (fun c hc => hxs c (by simp [hc]))]

theorem byteAt_append_right (pre rest : List Char) (i : Nat) :
    byteAt (pre ++ rest) (pre.length + i) = byteAt rest i := by
  simp [byteAt, List.getElem?_append_right]

theorem byteAt_length (pre rest : List Char) :
    byteAt (pre ++ rest) pre.length = byteAt rest 0 := by
  simpa using byteAt_append_right pre rest 0

theorem byteAt_at_end (z : List Char) (hz : at_end z) : byteAt z 0 = NUL := by
  rcases hz with h | h
  · subst h; rfl
  · cases z with
    | nil => rfl
    | cons a t => simp at h; subst h; rfl

theorem set_append_length (pre : List Char) (c : Char) (rest : List Char) (a : Char) :
    (pre ++ c :: rest).set pre.length a = pre ++ a :: rest := by
  rw [List.set_append_right _ _ (Nat.le_refl _)]
  simp

theorem spaces_succ (n : Nat) : spaces (n + 1) = spaces n ++ [' '] := by
  simp [spaces, List.replicate_succ']

theorem length_spaces (n : Nat) : (spaces n).length = n := by simp [spaces]

theorem mem_spaces {n : Nat} {c : Char} (h : c ∈ spaces n) : c = ' ' := by
  simp [spaces] at h; exact h.2

theorem word_head_ne_space (w : Str) (hw : is_word w) : ∃ y ys, w = y :: ys ∧ y ≠ ' ' := by
  obtain ⟨hne, hall⟩ := hw
  cases w with
  | nil => exact absurd rfl hne
  | cons y ys => exact ⟨y, ys, rfl, (hall y (by simp)).1⟩

theorem drop_two_parts (pre mid rest : List Char) :
    (pre ++ (mid ++ rest)).drop (pre.length + mid.length) = rest := by
  rw [← List.append_assoc]
  exact List.drop_left' (by simp)

theorem byteAt_two_parts (pre mid rest : List Char) :
    byteAt (pre ++ (mid ++ rest)) (pre.length + mid.length) = byteAt rest 0 := by
  have := byteAt_length (pre ++ mid) rest
  simpa using this

/-- `strtok` from the start of `spaces g ++ w ++ rest`, where the word `w` is followed by
a space, a NUL or the end of the buffer: the token is `w`. -/
theorem strtok_word (pre : List Char) (g : Nat) (w : Str) (rest : List Char)
    (hw : is_word w)
    (hrest : rest = [] ∨ ∃ y ys, rest = y :: ys ∧ (y = ' ' ∨ y = NUL)) :
    strtok (pre ++ (spaces g ++ (w ++ rest))) pre.length
      = if byteAt rest 0 = NUL then
          { buf := pre ++ (spaces g ++ (w ++ rest)), token := some (pre.length + g),
            save := pre.length + g + w.length }
        else
          { buf := (pre ++ (spaces g ++ (w ++ rest))).set (pre.length + g + w.length) NUL,
            token := some (pre.length + g), save := pre.length + g + w.length + 1 } := by
  obtain ⟨y, ys, hy, hyne⟩ := word_head_ne_space w hw
  have hd0 : (pre ++ (spaces g ++ (w ++ rest))).drop pre.length = spaces g ++ (w ++ rest) :=
    List.drop_left' rfl
  have hskip : ((spaces g ++ (w ++ rest)).takeWhile (fun c => c == ' ')).length = g := by
    rw [takeWhile_run _ _ (fun c hc => by simp [mem_spaces hc])
      (Or.inr ⟨y, ys ++ rest, by simp [hy], by simpa using hyne⟩), length_spaces]
  have hstart : byteAt (pre ++ (spaces g ++ (w ++ rest))) (pre.length + g) = y := by
    have := byteAt_two_parts pre (spaces g) (w ++ rest)
    rw [length_spaces] at this
    rw [this, hy]; rfl
  have hyN : y ≠ NUL := (hw.2 y (by simp [hy])).2.2
  have hdrop : (pre ++ (spaces g ++ (w ++ rest))).drop (pre.length + g) = w ++ rest := by
    have := drop_two_parts pre (spaces g) (w ++ rest)
    rwa [length_spaces] at this
  have hscan : ((w ++ rest).takeWhile (fun c => c != ' ' && c != NUL)).length = w.length := by
    rw [takeWhile_run _ _ (fun c hc => by
      have := hw.2 c hc; simp [this.1, this.2.2])]
    rcases hrest with h | ⟨z, zs, h, hz⟩
    · exact Or.inl h
    · refine Or.inr ⟨z, zs, h, ?_⟩
      rcases hz with hz | hz <;> subst hz <;> decide
  have hstop : byteAt (pre ++ (spaces g ++ (w ++ rest))) (pre.length + g + w.length)
      = byteAt rest 0 := by
    have e : pre ++ (spaces g ++ (w ++ rest)) = pre ++ ((spaces g ++ w) ++ rest) := by simp
    have l : pre.length + g + w.length = pre.length + (spaces g ++ w).length := by
      simp [length_spaces]; omega
    rw [e, l, byteAt_two_parts]
  simp only [strtok, hd0, hskip, hstart, hyN, if_false, hdrop, hscan, hstop]

/-- `strtok` on a word that a space follows: the space becomes NUL. -/
theorem strtok_word_space (pre : List Char) (g : Nat) (w : Str) (R : List Char)
    (hw : is_word w) :
    strtok (pre ++ (spaces g ++ (w ++ ' ' :: R))) pre.length
      = { buf := pre ++ (spaces g ++ (w ++ NUL :: R)), token := some (pre.length + g),
          save := pre.length + g + w.length + 1 } := by
  rw [strtok_word pre g w _ hw (Or.inr ⟨' ', R, rfl, Or.inl rfl⟩)]
  have hset : (pre ++ (spaces g ++ (w ++ ' ' :: R))).set (pre.length + g + w.length) NUL
      = pre ++ (spaces g ++ (w ++ NUL :: R)) := by
    have e : pre ++ (spaces g ++ (w ++ ' ' :: R)) = (pre ++ spaces g ++ w) ++ ' ' :: R := by simp
    have l : pre.length + g + w.length = (pre ++ spaces g ++ w).length := by
      simp [length_spaces]; omega
    rw [e, l, set_append_length]; simp
  have hb : ¬ byteAt (' ' :: R) 0 = NUL := by
    show ¬ ' ' = NUL
    decide
  rw [if_neg hb, hset]

/-- `strtok` on the last word of the string: nothing is written. -/
theorem strtok_word_end (pre : List Char) (g : Nat) (w : Str) (z : List Char)
    (hw : is_word w) (hz : at_end z) :
    strtok (pre ++ (spaces g ++ (w ++ z))) pre.length
      = { buf := pre ++ (spaces g ++ (w ++ z)), token := some (pre.length + g),
          save := pre.length + g + w.length } := by
  have hrest : z = [] ∨ ∃ y ys, z = y :: ys ∧ (y = ' ' ∨ y = NUL) := by
    rcases hz with h | h
    · exact Or.inl h
    · cases z with
      | nil => exact Or.inl rfl
      | cons a t => simp at h; exact Or.inr ⟨a, t, rfl, Or.inr h⟩
  rw [strtok_word pre g w _ hw hrest, if_pos (byteAt_at_end z hz)]

/-- `strtok` when only spaces are left: no token. -/
theorem strtok_none (pre : List Char) (g : Nat) (z : List Char) (hz : at_end z) :
    strtok (pre ++ (spaces g ++ z)) pre.length
      = { buf := pre ++ (spaces g ++ z), token := none, save := pre.length + g } := by
  have hd0 : (pre ++ (spaces g ++ z)).drop pre.length = spaces g ++ z := List.drop_left' rfl
  have hskip : ((spaces g ++ z).takeWhile (fun c => c == ' ')).length = g := by
    rw [takeWhile_run _ _ (fun c hc => by simp [mem_spaces hc]), length_spaces]
    rcases hz with h | h
    · exact Or.inl h
    · cases z with
      | nil => exact Or.inl rfl
      | cons a t => simp at h; subst h; exact Or.inr ⟨NUL, t, rfl, by decide⟩
  have hstart : byteAt (pre ++ (spaces g ++ z)) (pre.length + g) = NUL := by
    have := byteAt_two_parts pre (spaces g) z
    rw [length_spaces] at this
    rw [this, byteAt_at_end z hz]
  simp only [strtok, hd0, hskip, hstart, if_true]

/-! ## The tokenising loop on a line of words -/

theorem text_cons (g : Nat) (w : Str) (rest : List (Nat × Str)) :
    text ((g, w) :: rest) = spaces g ++ (w ++ (if rest = [] then [] else ' ' :: text rest)) := by
  cases rest <;> simp [text]

theorem ztext_cons (g : Nat) (w : Str) (rest : List (Nat × Str)) :
    ztext ((g, w) :: rest) = spaces g ++ (w ++ (if rest = [] then [] else NUL :: ztext rest)) := by
  cases rest <;> simp [ztext]

theorem tokenize_loop_none (fuel : Nat) (b : Buf) (save : Nat) (args : List (Option Nat)) :
    tokenize_loop fuel b none save args = (b, args) := by
  cases fuel <;> rfl

/-- The loop, entered when `strtok` has just returned the first word of the cells:
with enough fuel it stores the offset of every word and leaves `ztext`. -/
theorem tokenize_loop_cells (z : List Char) (hz : at_end z) :
    ∀ (rest : List (Nat × Str)) (pre : List Char) (g : Nat) (w : Str)
      (acc : List (Option Nat)) (fuel : Nat),
      is_word w → (∀ c ∈ rest, is_word c.2) → rest.length + 1 ≤ fuel →
      tokenize_loop fuel
          (pre ++ (spaces g ++ (w ++ (if rest = [] then z else NUL :: (text rest ++ z)))))
          (some (pre.length + g))
          (pre.length + g + w.length + (if rest = [] then 0 else 1)) acc
        = (pre ++ (ztext ((g, w) :: rest) ++ z),
           acc ++ (offsets pre.length ((g, w) :: rest)).map some) := by
  intro rest
  induction rest with
  | nil =>
    intro pre g w acc fuel hw _ hfuel
    obtain ⟨f, rfl⟩ : ∃ f, fuel = f + 1 := ⟨fuel - 1, by omega⟩
    have e : pre ++ (spaces g ++ (w ++ z)) = (pre ++ (spaces g ++ w)) ++ (spaces 0 ++ z) := by
      simp [spaces]
    have l : pre.length + g + w.length = (pre ++ (spaces g ++ w)).length := by
      simp [length_spaces]; omega
    simp only [if_true, Nat.add_zero, tokenize_loop]
    rw [l, e, strtok_none _ 0 z hz]
    simp [tokenize_loop_none, ztext, offsets, spaces]
  | cons cell rest2 ih =>
    obtain ⟨g2, w2⟩ := cell
    intro pre g w acc fuel hw hrest hfuel
    obtain ⟨f, rfl⟩ : ∃ f, fuel = f + 1 := ⟨fuel - 1, by omega⟩
    have hw2 : is_word w2 := hrest (g2, w2) (by simp)
    have hrest2 : ∀ c ∈ rest2, is_word c.2 := fun c hc => hrest c (by simp [hc])
    have hf : rest2.length + 1 ≤ f := by simp at hfuel; omega
    have hne : ¬ ((g2, w2) :: rest2 = []) := by simp
    have l : pre.length + g + w.length + 1 = (pre ++ (spaces g ++ (w ++ [NUL]))).length := by
      simp [length_spaces]; omega
    simp only [if_neg hne, tokenize_loop]
    rw [l]
    have e : pre ++ (spaces g ++ (w ++ NUL :: (text ((g2, w2) :: rest2) ++ z)))
        = (pre ++ (spaces g ++ (w ++ [NUL]))) ++
            (spaces g2 ++ (w2 ++ (if rest2 = [] then z else ' ' :: (text rest2 ++ z)))) := by
      rw [text_cons]
      by_cases h2 : rest2 = [] <;> simp [h2]
    rw [e]
    by_cases h2 : rest2 = []
    · subst h2
      simp only [if_true]
      rw [strtok_word_end _ g2 w2 z hw2 hz]
      have := ih (pre ++ (spaces g ++ (w ++ [NUL]))) g2 w2 (acc ++ [some (pre.length + g)]) f
        hw2 hrest2 hf
      simp only [if_true, Nat.add_zero] at this
      rw [this, ztext_cons g w, if_neg hne]
      simp [offsets, length_spaces]
      omega
    · simp only [if_neg h2]
      rw [strtok_word_space _ g2 w2 _ hw2]
      have := ih (pre ++ (spaces g ++ (w ++ [NUL]))) g2 w2 (acc ++ [some (pre.length + g)]) f
        hw2 hrest2 hf
      simp only [if_neg h2] at this
      rw [this, ztext_cons g w, if_neg hne]
      have l2 : pre.length + (g + (w.length + 1)) = pre.length + g + w.length + 1 := by omega
      simp [offsets, length_spaces, l2]

/-- Tokenising a line of at most `fuel` words: every word is stored. -/
theorem tokenize_text (cells : List (Nat × Str)) (hne : cells ≠ [])
    (hwf : ∀ c ∈ cells, is_word c.2) (z : List Char) (hz : at_end z) (fuel : Nat)
    (hfuel : cells.length ≤ fuel) :
    tokenize_loop fuel (strtok (text cells ++ z) 0).buf (strtok (text cells ++ z) 0).token
        (strtok (text cells ++ z) 0).save []
      = (ztext cells ++ z, (offsets 0 cells).map some) := by
  obtain ⟨⟨g, w⟩, rest, rfl⟩ := List.exists_cons_of_ne_nil hne
  have hw : is_word w := hwf (g, w) (by simp)
  have hrest : ∀ c ∈ rest, is_word c.2 := fun c hc => hwf c (by simp [hc])
  have key := tokenize_loop_cells z hz rest [] g w [] fuel hw hrest (by simpa using hfuel)
  simp only [List.nil_append, List.length_nil, Nat.zero_add] at key
  by_cases h : rest = []
  · subst h
    have e : text [(g, w)] ++ z = [] ++ (spaces g ++ (w ++ z)) := by simp [text]
    have s := strtok_word_end [] g w z hw hz
    simp only [List.length_nil, Nat.zero_add] at s
    simp only [if_true, Nat.add_zero] at key
    rw [e, s]
    exact key
  · have e : text ((g, w) :: rest) ++ z = [] ++ (spaces g ++ (w ++ ' ' :: (text rest ++ z))) := by
      rw [text_cons, if_neg h]; simp
    have s := strtok_word_space [] g w (text rest ++ z) hw
    simp only [List.length_nil, Nat.zero_add] at s
    simp only [if_neg h] at key
    rw [e, s]
    exact key

theorem cstr_word (pre : List Char) (g : Nat) (w : Str) (tail : List Char)
    (hw : is_word w) (htail : at_end tail) :
    cstr (pre ++ (spaces g ++ (w ++ tail))) (pre.length + g) = w := by
  have hdrop : (pre ++ (spaces g ++ (w ++ tail))).drop (pre.length + g) = w ++ tail := by
    have := drop_two_parts pre (spaces g) (w ++ tail)
    rwa [length_spaces] at this
  unfold cstr
  rw [hdrop]
  apply takeWhile_run _ _ (fun c hc => by simp [(hw.2 c hc).2.2])
  rcases htail with h | h
  · exact Or.inl h
  · cases tail with
    | nil => exact Or.inl rfl
    | cons a t => simp at h; subst h; exact Or.inr ⟨NUL, t, rfl, by decide⟩

/-- Read through the offsets, the tokenised text gives back the words. -/
theorem cstr_offsets (z : List Char) (hz : at_end z) :
    ∀ (cells : List (Nat × Str)) (pre : List Char), (∀ c ∈ cells, is_word c.2) →
      (offsets pre.length cells).map (cstr (pre ++ (ztext cells ++ z))) = words cells := by
  intro cells
  induction cells with
  | nil => intro pre _; rfl
  | cons cell rest ih =>
    obtain ⟨g, w⟩ := cell
    intro pre hwf
    have hw : is_word w := hwf (g, w) (by simp)
    have hrest : ∀ c ∈ rest, is_word c.2 := fun c hc => hwf c (by simp [hc])
    have e : pre ++ (ztext ((g, w) :: rest) ++ z)
        = pre ++ (spaces g ++ (w ++ (if rest = [] then z else NUL :: (ztext rest ++ z)))) := by
      rw [ztext_cons]
      by_cases h : rest = [] <;> simp [h]
    have htail : at_end (if rest = [] then z else NUL :: (ztext rest ++ z)) := by
      by_cases h : rest = []
      · simpa [h] using hz
      · simp [h, at_end]
    simp only [offsets, words, List.map_cons]
    congr 1
    · rw [e]; exact cstr_word pre g w _ hw htail
    · by_cases h : rest = []
      · subst h; rfl
      · have e2 : pre ++ (ztext ((g, w) :: rest) ++ z)
            = (pre ++ (spaces g ++ (w ++ [NUL]))) ++ (ztext rest ++ z) := by
          rw [ztext_cons, if_neg h]; simp
        have l : pre.length + g + w.length + 1 = (pre ++ (spaces g ++ (w ++ [NUL]))).length := by
          simp [length_spaces]; omega
        rw [e2, l]
        exact ih _ hrest

/-! ## The steps of parse_command before tokenising -/

theorem strlen_run (body z : List Char) (hbody : ∀ c ∈ body, c ≠ NUL) (hz : at_end z) :
    strlen (body ++ z) = body.length := by
  unfold strlen cstr
  rw [List.drop_zero, takeWhile_run body z (fun c hc => by simp [hbody c hc])]
  rcases hz with h | h
  · exact Or.inl h
  · cases z with
    | nil => exact Or.inl rfl
    | cons a t => simp at h; subst h; exact Or.inr ⟨NUL, t, rfl, by decide⟩

theorem strcspn_newline_run (body more : List Char)
    (hbody : ∀ c ∈ body, c ≠ '\n' ∧ c ≠ NUL) :
    strcspn_newline (body ++ '\n' :: more) = body.length := by
  unfold strcspn_newline
  rw [takeWhile_run body _ (fun c hc => by simp [(hbody c hc).1, (hbody c hc).2])
    (Or.inr ⟨'\n', more, rfl, by decide⟩)]

theorem byteAt_snoc (init : List Char) (c : Char) (rest : List Char) :
    byteAt ((init ++ [c]) ++ rest) init.length = c := by
  have := byteAt_two_parts [] init (c :: rest)
  simpa [byteAt] using this

theorem at_end_nul (z : List Char) : at_end (NUL :: z) := Or.inr rfl

/-- The trimming loop cuts exactly the `k` trailing spaces. -/
theorem trim_trailing_spaces (init : List Char) (c : Char) (hc : c ≠ ' ')
    (hnul : ∀ x ∈ init ++ [c], x ≠ NUL) :
    ∀ (k : Nat) (z : List Char) (fuel : Nat), at_end z → k ≤ fuel →
      trim_trailing fuel ((init ++ [c]) ++ (spaces k ++ z))
        = (init ++ [c]) ++ (List.replicate k NUL ++ z) := by
  intro k
  induction k with
  | zero =>
    intro z fuel hz _
    cases fuel with
    | zero => simp [trim_trailing, spaces]
    | succ f =>
      have hlen : strlen ((init ++ [c]) ++ (spaces 0 ++ z)) = init.length + 1 := by
        have := strlen_run (init ++ [c]) z hnul hz
        simpa [spaces] using this
      have hlast : byteAt ((init ++ [c]) ++ (spaces 0 ++ z)) init.length = c := byteAt_snoc _ _ _
      unfold trim_trailing
      rw [hlen, Nat.add_sub_cancel, hlast, if_neg (by simp [hc])]
      simp [spaces]
  | succ k ih =>
    intro z fuel hz hfuel
    obtain ⟨f, rfl⟩ : ∃ f, fuel = f + 1 := ⟨fuel - 1, by omega⟩
    have e : (init ++ [c]) ++ (spaces (k + 1) ++ z) = ((init ++ [c]) ++ spaces k) ++ ' ' :: z := by
      rw [spaces_succ]; simp
    have hbody : ∀ x ∈ (init ++ [c]) ++ spaces (k + 1), x ≠ NUL := by
      intro x hx
      rcases List.mem_append.1 hx with h | h
      · exact hnul x h
      · rw [mem_spaces h]; decide
    have hlen : strlen ((init ++ [c]) ++ (spaces (k + 1) ++ z)) = init.length + 1 + k + 1 := by
      have := strlen_run ((init ++ [c]) ++ spaces (k + 1)) z hbody hz
      rw [List.append_assoc] at this
      rw [this]; simp [length_spaces]; omega
    have l : init.length + 1 + k = ((init ++ [c]) ++ spaces k).length := by
      simp [length_spaces]; omega
    have hlast : byteAt ((init ++ [c]) ++ (spaces (k + 1) ++ z)) (init.length + 1 + k) = ' ' := by
      rw [e, l, byteAt_length]; rfl
    have hset : ((init ++ [c]) ++ (spaces (k + 1) ++ z)).set (init.length + 1 + k) NUL
        = (init ++ [c]) ++ (spaces k ++ NUL :: z) := by
      rw [e, l, set_append_length]; simp
    unfold trim_trailing
    rw [hlen, Nat.add_sub_cancel, hlast, if_pos ⟨by omega, rfl⟩, hset,
      ih (NUL :: z) f (at_end_nul z) (by omega)]
    simp [List.replicate_succ']

theorem text_clean : ∀ (cells : List (Nat × Str)), (∀ c ∈ cells, is_word c.2) →
    ∀ x ∈ text cells, x ≠ '\n' ∧ x ≠ NUL := by
  intro cells
  induction cells with
  | nil => intro _ x hx; simp [text] at hx
  | cons cell rest ih =>
    obtain ⟨g, w⟩ := cell
    intro hwf x hx
    have hw : is_word w := hwf (g, w) (by simp)
    have hrest : ∀ c ∈ rest, is_word c.2 := fun c hc => hwf c (by simp [hc])
    rw [text_cons] at hx
    rcases List.mem_append.1 hx with h | h
    · rw [mem_spaces h]; decide
    · rcases List.mem_append.1 h with h | h
      · exact (hw.2 x h).2
      · by_cases hr : rest = []
        · simp [hr] at h
        · rw [if_neg hr] at h
          rcases List.mem_cons.1 h with h | h
          · subst h; decide
          · exact ih hrest x h

theorem text_snoc : ∀ (cells : List (Nat × Str)), cells ≠ [] → (∀ c ∈ cells, is_word c.2) →
    ∃ init c, text cells = init ++ [c] ∧ c ≠ ' ' := by
  intro cells
  induction cells with
  | nil => intro h; exact absurd rfl h
  | cons cell rest ih =>
    obtain ⟨g, w⟩ := cell
    intro _ hwf
    have hw : is_word w := hwf (g, w) (by simp)
    have hrest : ∀ c ∈ rest, is_word c.2 := fun c hc => hwf c (by simp [hc])
    rw [text_cons]
    by_cases hr : rest = []
    · obtain ⟨hne, hall⟩ := hw
      refine ⟨spaces g ++ w.dropLast, w.getLast hne, ?_, (hall _ (List.getLast_mem hne)).1⟩
      rw [if_pos hr, List.append_nil, List.append_assoc, List.dropLast_append_getLast]
    · obtain ⟨init, c, h, hc⟩ := ih hr hrest
      refine ⟨spaces g ++ (w ++ ' ' :: init), c, ?_, hc⟩
      rw [if_neg hr, h]; simp

/-- The first two steps of parse_command on a line of words: the newline is cut, the
string is not empty, and its last character is an ampersand exactly when `amp` holds. -/
theorem line_of_cut (cells : List (Nat × Str)) (k : Nat) (amp : Bool)
    (hne : cells ≠ []) (hwf : ∀ c ∈ cells, is_word c.2)
    (hamp : amp = false → k = 0 → (text cells).getLast? ≠ some '&') :
    (line_of cells k amp).set (strcspn_newline (line_of cells k amp)) NUL
      = (text cells ++ (spaces k ++ (if amp then ['&'] else []))) ++ [NUL] ∧
    strlen ((text cells ++ (spaces k ++ (if amp then ['&'] else []))) ++ [NUL])
      = (text cells ++ (spaces k ++ (if amp then ['&'] else []))).length ∧
    (text cells ++ (spaces k ++ (if amp then ['&'] else []))).length ≠ 0 ∧
    decide (byteAt ((text cells ++ (spaces k ++ (if amp then ['&'] else []))) ++ [NUL])
        ((text cells ++ (spaces k ++ (if amp then ['&'] else []))).length - 1) = '&') = amp := by
  obtain ⟨init, c, hT, hc⟩ := text_snoc cells hne hwf
  have hclean := text_clean cells hwf
  have hnulT : ∀ x ∈ init ++ [c], x ≠ NUL := fun x hx => (hclean x (hT ▸ hx)).2
  -- the text before the newline
  have hbody : ∀ x ∈ text cells ++ (spaces k ++ (if amp then ['&'] else [])),
      x ≠ '\n' ∧ x ≠ NUL := by
    intro x hx
    rcases List.mem_append.1 hx with h | h
    · exact hclean x h
    · rcases List.mem_append.1 h with h | h
      · rw [mem_spaces h]; decide
      · cases amp <;> simp at h
        subst h; decide
  have hline : line_of cells k amp
      = (text cells ++ (spaces k ++ (if amp then ['&'] else []))) ++ '\n' :: [] := by
    simp [line_of]
  have hcspn : strcspn_newline (line_of cells k amp)
      = (text cells ++ (spaces k ++ (if amp then ['&'] else []))).length := by
    rw [hline, strcspn_newline_run _ _ hbody]
  have hc1 : (line_of cells k amp).set
      (text cells ++ (spaces k ++ (if amp then ['&'] else []))).length NUL
      = (text cells ++ (spaces k ++ (if amp then ['&'] else []))) ++ [NUL] := by
    rw [hline, set_append_length]
  have hlen1 : strlen ((text cells ++ (spaces k ++ (if amp then ['&'] else []))) ++ [NUL])
      = (text cells ++ (spaces k ++ (if amp then ['&'] else []))).length :=
    strlen_run _ _ (fun x hx => (hbody x hx).2) (at_end_nul [])
  have hpos : (text cells ++ (spaces k ++ (if amp then ['&'] else []))).length ≠ 0 := by
    rw [hT]; simp
  -- the ampersand check and what it leaves
  have hdec : decide (byteAt ((text cells ++ (spaces k ++ (if amp then ['&'] else []))) ++ [NUL])
        ((text cells ++ (spaces k ++ (if amp then ['&'] else []))).length - 1) = '&') = amp := by
    cases amp with
    | true =>
      have l : (text cells ++ (spaces k ++ ['&'])).length - 1 = (text cells ++ spaces k).length := by
        simp
      have e : (text cells ++ (spaces k ++ ['&'])) ++ [NUL]
          = ((text cells ++ spaces k) ++ ['&']) ++ [NUL] := by simp
      have hb : byteAt (((text cells ++ spaces k) ++ ['&']) ++ [NUL]) (text cells ++ spaces k).length
          = '&' := byteAt_snoc _ _ _
      simp only [if_true, l]
      rw [e, hb]
      rfl
    | false =>
      simp only [Bool.false_eq_true, if_false, List.append_nil]
      apply decide_eq_false
      cases k with
      | zero =>
        have h0 := hamp rfl rfl
        rw [hT] at h0 ⊢
        simp only [spaces, List.replicate_zero, List.append_nil, List.length_append,
          List.length_singleton, Nat.add_sub_cancel]
        rw [byteAt_snoc]
        simpa using h0
      | succ j =>
        have e : (text cells ++ spaces (j + 1)) ++ [NUL]
            = ((text cells ++ spaces j) ++ [' ']) ++ [NUL] := by rw [spaces_succ]; simp
        have l : (text cells ++ spaces (j + 1)).length - 1 = (text cells ++ spaces j).length := by
          simp only [List.length_append, length_spaces]; omega
        rw [e, l, byteAt_snoc]; decide
  rw [hcspn]
  exact ⟨hc1, hlen1, hpos, hdec⟩

/-- The steps of parse_command up to the pipe check, on a line of at most 63 words:
the buffer holds the tokenised text and `args` the offsets of all the words. -/
theorem parse_command_line_of (cells : List (Nat × Str)) (k : Nat) (amp : Bool)
    (redirect_input : Int) (hne : cells ≠ []) (hwf : ∀ c ∈ cells, is_word c.2)
    (hlen : cells.length ≤ MAX_ARGS - 1)
    (hamp : amp = false → k = 0 → (text cells).getLast? ≠ some '&') :
    parse_command (line_of cells k amp) redirect_input
      = if bad_pipe_placement ((offsets 0 cells).map some ++ [none]).length
            (ztext cells ++ padding k amp) ((offsets 0 cells).map some ++ [none]) 0 then
          some { ret := 0, command := ztext cells ++ padding k amp,
                 args := (offsets 0 cells).map some ++ [none],
                 background := if amp then 1 else 0,
                 redirect_input := redirect_input,
                 diag := [Event.err Msg.invalid_pipe_placement] }
        else
          some (detect_redirect ((offsets 0 cells).map some ++ [none]).length
            (ztext cells ++ padding k amp) ((offsets 0 cells).map some ++ [none]) 0
            (if amp then 1 else 0) []) := by
  obtain ⟨init, c, hT, hc⟩ := text_snoc cells hne hwf
  have hclean := text_clean cells hwf
  have hnulT : ∀ x ∈ init ++ [c], x ≠ NUL := fun x hx => (hclean x (hT ▸ hx)).2
  obtain ⟨hc1, hlen1, hpos, hdec⟩ := line_of_cut cells k amp hne hwf hamp
  have hc2 : (if amp = true
      then ((text cells ++ (spaces k ++ (if amp then ['&'] else []))) ++ [NUL]).set
        ((text cells ++ (spaces k ++ (if amp then ['&'] else []))).length - 1) NUL
      else (text cells ++ (spaces k ++ (if amp then ['&'] else []))) ++ [NUL])
      = (init ++ [c]) ++ (spaces k ++ (if amp then [NUL, NUL] else [NUL])) := by
    cases amp with
    | true =>
      have l : (text cells ++ (spaces k ++ ['&'])).length - 1 = (text cells ++ spaces k).length := by
        simp
      have e2 : (text cells ++ (spaces k ++ ['&'])) ++ [NUL]
          = (text cells ++ spaces k) ++ '&' :: [NUL] := by simp
      simp only [if_true, l]
      rw [e2, set_append_length, hT]
      simp
    | false => simp [hT]
  have hlen2 : strlen ((init ++ [c]) ++ (spaces k ++ (if amp then [NUL, NUL] else [NUL])))
      = init.length + 1 + k := by
    have hb : ∀ x ∈ (init ++ [c]) ++ spaces k, x ≠ NUL := by
      intro x hx
      rcases List.mem_append.1 hx with h | h
      · exact hnulT x h
      · rw [mem_spaces h]; decide
    have := strlen_run ((init ++ [c]) ++ spaces k) (if amp then [NUL, NUL] else [NUL]) hb
      (by cases amp <;> exact at_end_nul _)
    rw [List.append_assoc] at this
    rw [this]; simp only [List.length_append, length_spaces, List.length_singleton]
  have hz : at_end (if amp then [NUL, NUL] else [NUL]) := by cases amp <;> exact at_end_nul _
  have hc3 : trim_trailing (init.length + 1 + k)
      ((init ++ [c]) ++ (spaces k ++ (if amp then [NUL, NUL] else [NUL])))
      = (init ++ [c]) ++ padding k amp :=
    trim_trailing_spaces init c hc hnulT k _ (init.length + 1 + k) hz (by omega)
  have hpad : at_end (padding k amp) := by
    unfold padding
    cases k with
    | zero => simpa using hz
    | succ j => simp [List.replicate_succ, at_end]
  have hlen3 : strlen ((init ++ [c]) ++ padding k amp) = init.length + 1 := by
    have := strlen_run (init ++ [c]) (padding k amp) hnulT hpad
    simpa using this
  have htok := tokenize_text cells hne hwf (padding k amp) hpad (MAX_ARGS - 1) hlen
  unfold parse_command
  simp only [hc1, hlen1, if_neg hpos, hdec, hc2, hlen2, hc3]
  unfold tokenize_and_check
  rw [hlen3, if_neg (by omega)]
  simp only [← hT, htok]
  split <;> rfl

/-! ## The pipe check and the redirection scan -/

theorem argAt_mem {args : List (Option Nat)} {i t : Nat} (h : argAt args i = some t) :
    some t ∈ args := by
  unfold argAt at h
  rw [List.getD_eq_getElem?_getD] at h
  cases hg : args[i]? with
  | none => rw [hg] at h; simp at h
  | some a =>
    rw [hg] at h
    simp at h
    subst h
    exact List.getElem?_mem hg

theorem bad_pipe_placement_false (b : Buf) (args : List (Option Nat))
    (h : ∀ t, some t ∈ args → cstr b t ≠ ['|']) :
    ∀ (fuel i : Nat), bad_pipe_placement fuel b args i = false := by
  intro fuel
  induction fuel with
  | zero => intro i; rfl
  | succ f ih =>
    intro i
    unfold bad_pipe_placement
    cases hg : argAt args i with
    | none => rfl
    | some t =>
      have := h t (argAt_mem hg)
      simp only [this, false_and, if_false]
      exact ih (i + 1)

theorem detect_redirect_none (b : Buf) (args : List (Option Nat)) (background : Int)
    (diag : List Event) (h : ∀ t, some t ∈ args → cstr b t ≠ ['<']) :
    ∀ (fuel i : Nat), detect_redirect fuel b args i background diag
      = { ret := 1, command := b, args := args, background := background,
          redirect_input := 0, diag := diag } := by
  intro fuel
  induction fuel with
  | zero => intro i; rfl
  | succ f ih =>
    intro i
    unfold detect_redirect
    cases hg : argAt args i with
    | none => rfl
    | some t =>
      have := h t (argAt_mem hg)
      simp only [this, if_false]
      exact ih (i + 1)

theorem detect_redirect_background (b : Buf) (args : List (Option Nat)) (background : Int)
    (diag : List Event) :
    ∀ (fuel i : Nat), (detect_redirect fuel b args i background diag).background = background := by
  intro fuel
  induction fuel with
  | zero => intro i; rfl
  | succ f ih =>
    intro i
    unfold detect_redirect
    cases argAt args i with
    | none => rfl
    | some t =>
      simp only []
      split
      · cases argAt args (i + 1) <;> rfl
      · exact ih (i + 1)

/-- The vector read through the offsets of a tokenised line is the words and `NULL`. -/
theorem resolve_ztext (cells : List (Nat × Str)) (hwf : ∀ c ∈ cells, is_word c.2)
    (z : List Char) (hz : at_end z) :
    resolve (ztext cells ++ z) ((offsets 0 cells).map some ++ [none])
      = (words cells).map some ++ [none] := by
  have := cstr_offsets z hz cells [] hwf
  simp only [List.nil_append, List.length_nil] at this
  simp only [resolve, List.map_append, List.map_map, List.map_cons, List.map_nil, Option.map_none']
  rw [← this, List.map_map]
  rfl

theorem at_end_padding (k : Nat) (amp : Bool) : at_end (padding k amp) := by
  unfold padding
  cases k with
  | zero => cases amp <;> exact at_end_nul _
  | succ j => simp [List.replicate_succ, at_end]

theorem cstr_of_mem_offsets (cells : List (Nat × Str)) (hwf : ∀ c ∈ cells, is_word c.2)
    (z : List Char) (hz : at_end z) (t : Nat)
    (ht : some t ∈ (offsets 0 cells).map some ++ [none]) :
    cstr (ztext cells ++ z) t ∈ words cells := by
  have hmem : t ∈ offsets 0 cells := by
    simpa using ht
  have := cstr_offsets z hz cells [] hwf
  simp only [List.nil_append, List.length_nil] at this
  rw [← this]
  exact List.mem_map_of_mem _ hmem

/-! ## The loops stop within their fuel -/

/-- A buffer splits into its leading C string and an end. -/
theorem buffer_split (c : Buf) :
    ∃ s z, c = s ++ z ∧ (∀ x ∈ s, x ≠ NUL) ∧ at_end z ∧ strlen c = s.length := by
  refine ⟨c.takeWhile (fun x => x != NUL), c.dropWhile (fun x => x != NUL),
    (List.takeWhile_append_dropWhile _ _).symm, ?_, ?_, ?_⟩
  · intro x hx
    simpa using List.mem_takeWhile_imp hx
  · cases h : c.dropWhile (fun x => x != NUL) with
    | nil => exact Or.inl rfl
    | cons a t =>
      right
      have := List.head?_dropWhile_not (fun x => x != NUL) c
      rw [h] at this
      simp at this
      simp [this]
  · simp [strlen, cstr]

/-- Cutting the last character shortens the string by one. -/
theorem strlen_cut_last (c : Buf) (h : strlen c > 0) :
    strlen (c.set (strlen c - 1) NUL) = strlen c - 1 := by
  obtain ⟨s, z, hc, hs, hz, hlen⟩ := buffer_split c
  have hne : s ≠ [] := by
    intro h0; rw [h0] at hlen; simp at hlen; omega
  have hsplit : s = s.dropLast ++ [s.getLast hne] := (List.dropLast_append_getLast hne).symm
  have hl : strlen c - 1 = s.dropLast.length := by rw [hlen]; simp
  have e : c = s.dropLast ++ s.getLast hne :: z := by
    rw [hc]; conv_lhs => rw [hsplit]
    simp
  rw [hl]
  conv_lhs => rw [e]
  rw [set_append_length]
  exact strlen_run _ _ (fun x hx => hs x (List.mem_of_mem_dropLast hx)) (at_end_nul z)

/-- With `strlen command` passes of fuel the trimming loop ends because its condition
fails: the string left is empty or does not end in a space. -/
theorem trim_trailing_stops (fuel : Nat) :
    ∀ (command : Buf), strlen command ≤ fuel →
      ¬ (strlen (trim_trailing fuel command) > 0 ∧
        byteAt (trim_trailing fuel command) (strlen (trim_trailing fuel command) - 1) = ' ') := by
  induction fuel with
  | zero =>
    intro command h
    simp only [trim_trailing]
    omega
  | succ f ih =>
    intro command h
    unfold trim_trailing
    by_cases hc : strlen command > 0 ∧ byteAt command (strlen command - 1) = ' '
    · rw [if_pos hc]
      exact ih _ (by rw [strlen_cut_last command hc.1]; omega)
    · rw [if_neg hc]
      exact hc

/-- The pipe check never runs out of fuel: a pass more changes nothing once the fuel
covers the cells of `args` from `i` on. -/
theorem bad_pipe_placement_fuel (b : Buf) (args : List (Option Nat)) :
    ∀ (fuel i : Nat), args.length ≤ i + fuel →
      bad_pipe_placement (fuel + 1) b args i = bad_pipe_placement fuel b args i := by
  intro fuel
  induction fuel with
  | zero =>
    intro i h
    have : argAt args i = none := by
      unfold argAt
      rw [List.getD_eq_getElem?_getD, List.getElem?_eq_none (by omega)]
      rfl
    simp [bad_pipe_placement, this]
  | succ f ih =>
    intro i h
    rw [bad_pipe_placement]
    conv_rhs => rw [bad_pipe_placement]
    cases argAt args i with
    | none => rfl
    | some t =>
      simp only []
      split
      · rfl
      · exact ih (i + 1) (by omega)

/-- The redirection scan never runs out of fuel either. -/
theorem detect_redirect_fuel (b : Buf) (args : List (Option Nat)) (background : Int)
    (diag : List Event) :
    ∀ (fuel i : Nat), args.length ≤ i + fuel →
      detect_redirect (fuel + 1) b args i background diag
        = detect_redirect fuel b args i background diag := by
  intro fuel
  induction fuel with
  | zero =>
    intro i h
    have : argAt args i = none := by
      unfold argAt
      rw [List.getD_eq_getElem?_getD, List.getElem?_eq_none (by omega)]
      rfl
    simp [detect_redirect, this]
  | succ f ih =>
    intro i h
    rw [detect_redirect]
    conv_rhs => rw [detect_redirect]
    cases argAt args i with
    | none => rfl
    | some t =>
      simp only []
      split
      · rfl
      · exact ih (i + 1) (by omega)

/-! ## Lines of plain words -/

theorem words_wf (cells : List (Nat × Str)) (h : ∀ w ∈ words cells, is_word w) :
    ∀ c ∈ cells, is_word c.2 :=
  fun c hc => h c.2 (List.mem_map_of_mem _ hc)

/-- A line of at most 63 words, none of them a pipe or a redirection token, parses to
those words, whatever follows the last word (spaces, an ampersand). -/
theorem parse_command_plain (cells : List (Nat × Str)) (k : Nat) (amp : Bool)
    (redirect_input : Int) (hne : cells ≠ []) (hlen : cells.length ≤ MAX_ARGS - 1)
    (hwords : ∀ w ∈ words cells, is_word w ∧ w ≠ ['|'] ∧ w ≠ ['<'])
    (hamp : amp = false → k = 0 → (text cells).getLast? ≠ some '&') :
    parse_command (line_of cells k amp) redirect_input
      = some { ret := 1, command := ztext cells ++ padding k amp,
               args := (offsets 0 cells).map some ++ [none],
               background := if amp then 1 else 0, redirect_input := 0, diag := [] } := by
  have hwf := words_wf cells (fun w hw => (hwords w hw).1)
  have hz := at_end_padding k amp
  rw [parse_command_line_of cells k amp redirect_input hne hwf hlen hamp,
    bad_pipe_placement_false _ _ (fun t ht =>
      (hwords _ (cstr_of_mem_offsets cells hwf _ hz t ht)).2.1),
    detect_redirect_none _ _ _ _ (fun t ht =>
      (hwords _ (cstr_of_mem_offsets cells hwf _ hz t ht)).2.2)]
  simp

/-- C8: a line of 1 to 63 words separated by spaces and ended by a newline, no word
being a pipe or redirection token and the last character before the newline not an
ampersand, makes parse_command return 1 with background 0 and redirect_input 0, and
args holds exactly the words in order, followed by NULL. -/
theorem C8_plain_line (cells : List (Nat × Str)) (redirect_input : Int)
    (hcount : 1 ≤ cells.length ∧ cells.length ≤ 63)
    (hwords : ∀ w ∈ words cells, is_word w ∧ w ≠ ['|'] ∧ w ≠ ['<'])
    (hlast : (text cells).getLast? ≠ some '&') :
    parse_command (text cells ++ ['\n']) redirect_input
      = some { ret := 1, command := ztext cells ++ [NUL],
               args := (offsets 0 cells).map some ++ [none],
               background := 0, redirect_input := 0, diag := [] } ∧
    resolve (ztext cells ++ [NUL]) ((offsets 0 cells).map some ++ [none])
      = (words cells).map some ++ [none] := by
  have hne : cells ≠ [] := by
    intro h; rw [h] at hcount; simp at hcount
  have hwf := words_wf cells (fun w hw => (hwords w hw).1)
  constructor
  · have := parse_command_plain cells 0 false redirect_input hne hcount.2 hwords
      (fun _ _ => hlast)
    simpa [line_of, padding, spaces] using this
  · exact resolve_ztext cells hwf [NUL] (at_end_nul [])

theorem C8_plain_line_witness :
    (1 ≤ ls_l.length ∧ ls_l.length ≤ 63) ∧
    (∀ w ∈ words ls_l, is_word w ∧ w ≠ ['|'] ∧ w ≠ ['<']) ∧
    (text ls_l).getLast? ≠ some '&' ∧
    text ls_l ++ ['\n'] = "ls -l\n".toList ∧
    parse_command (text ls_l ++ ['\n']) 0
      = some { ret := 1, command := ztext ls_l ++ [NUL],
               args := (offsets 0 ls_l).map some ++ [none],
               background := 0, redirect_input := 0, diag := [] } ∧
    resolve (ztext ls_l ++ [NUL]) ((offsets 0 ls_l).map some ++ [none])
      = (words ls_l).map some ++ [none] :=
  ⟨by decide, by decide, by decide, by decide,
   C8_plain_line ls_l 0 (by decide) (by decide) (by decide)⟩

/-- The background flag parse_command leaves is decided by the last character before
the newline alone, on every line that is not empty once the newline is cut. -/
theorem parse_command_background (command : Buf) (redirect_input : Int)
    (h : strlen (command.set (strcspn_newline command) NUL) ≠ 0) :
    ∃ r, parse_command command redirect_input = some r ∧
      r.background = if byteAt (command.set (strcspn_newline command) NUL)
        (strlen (command.set (strcspn_newline command) NUL) - 1) = '&' then 1 else 0 := by
  unfold parse_command tokenize_and_check
  simp only [if_neg h]
  by_cases ha : byteAt (command.set (strcspn_newline command) NUL)
      (strlen (command.set (strcspn_newline command) NUL) - 1) = '&'
  · simp only [ha, decide_True, if_true]
    split
    · exact ⟨_, rfl, rfl⟩
    · split
      · exact ⟨_, rfl, rfl⟩
      · exact ⟨_, rfl, detect_redirect_background _ _ _ _ _ _⟩
  · simp only [ha, decide_False, if_false, Bool.false_eq_true]
    split
    · exact ⟨_, rfl, rfl⟩
    · split
      · exact ⟨_, rfl, rfl⟩
      · exact ⟨_, rfl, detect_redirect_background _ _ _ _ _ _⟩

theorem text_getLast? : ∀ (cells : List (Nat × Str)), (∀ c ∈ cells, is_word c.2) →
    (text cells).getLast? = (words cells).getLast?.bind List.getLast? := by
  intro cells
  induction cells with
  | nil => intro _; rfl
  | cons cell rest ih =>
    obtain ⟨g, w⟩ := cell
    intro hwf
    have hw : is_word w := hwf (g, w) (by simp)
    have hrest : ∀ c ∈ rest, is_word c.2 := fun c hc => hwf c (by simp [hc])
    rw [text_cons]
    by_cases hr : rest = []
    · subst hr
      simp only [if_true, List.append_nil, words, List.map_cons, List.map_nil,
        List.getLast?_singleton, Option.some_bind]
      rw [List.getLast?_append_of_ne_nil _ hw.1]
    · obtain ⟨c2, rest2, rfl⟩ := List.exists_cons_of_ne_nil hr
      have hne : text (c2 :: rest2) ≠ [] := by
        obtain ⟨init, c, h, _⟩ := text_snoc (c2 :: rest2) hr hrest
        rw [h]; simp
      have hcons : (' ' :: text (c2 :: rest2)).getLast? = (text (c2 :: rest2)).getLast? := by
        obtain ⟨y, ys, hy⟩ := List.exists_cons_of_ne_nil hne
        rw [hy, List.getLast?_cons_cons]
      rw [if_neg hr, List.getLast?_append_of_ne_nil _ (by simp),
        List.getLast?_append_of_ne_nil _ (by simp), hcons, ih hrest]
      simp [words]

/-- The extent of the defect behind the ampersand test: on every line made of a command
that ends in an ampersand, then one or more trailing spaces, then the newline,
parse_command leaves background at 0, because it tests the last character before it
trims the spaces; when the command is 1 to 63 words, none of them a pipe or redirection
token, it returns 1 and the ampersand is handed on as (the end of) the last argument. -/
theorem ampersand_before_spaces_missed (cells : List (Nat × Str)) (k : Nat) (redirect_input : Int)
    (hne : cells ≠ []) (hwf : ∀ w ∈ words cells, is_word w)
    (hamp : (text cells).getLast? = some '&') :
    (∃ r, parse_command (text cells ++ (spaces (k + 1) ++ ['\n'])) redirect_input = some r ∧
      r.background = 0) ∧
    (cells.length ≤ 63 → (∀ w ∈ words cells, w ≠ ['|'] ∧ w ≠ ['<']) →
      parse_command (text cells ++ (spaces (k + 1) ++ ['\n'])) redirect_input
        = some { ret := 1, command := ztext cells ++ padding (k + 1) false,
                 args := (offsets 0 cells).map some ++ [none],
                 background := 0, redirect_input := 0, diag := [] } ∧
      resolve (ztext cells ++ padding (k + 1) false) ((offsets 0 cells).map some ++ [none])
        = (words cells).map some ++ [none] ∧
      (words cells).getLast?.bind List.getLast? = some '&') := by
  have hcells := words_wf cells hwf
  have hline : text cells ++ (spaces (k + 1) ++ ['\n']) = line_of cells (k + 1) false := by
    simp [line_of]
  rw [hline]
  constructor
  · obtain ⟨hc1, hlen1, hpos, hdec⟩ :=
      line_of_cut cells (k + 1) false hne hcells (fun _ h => absurd h (by omega))
    have hb := parse_command_background (line_of cells (k + 1) false) redirect_input
      (by rw [hc1, hlen1]; exact hpos)
    obtain ⟨r, hr, hbg⟩ := hb
    refine ⟨r, hr, ?_⟩
    rw [hbg, hc1, hlen1]
    have := of_decide_eq_false hdec
    rw [if_neg this]
  · intro hlen hplain
    refine ⟨?_, ?_, ?_⟩
    · have := parse_command_plain cells (k + 1) false redirect_input hne hlen
        (fun w hw => ⟨hwf w hw, hplain w hw⟩) (fun _ h => absurd h (by omega))
      simpa using this
    · exact resolve_ztext cells hcells _ (at_end_padding _ _)
    · rw [← text_getLast? cells hcells, hamp]

theorem ampersand_before_spaces_missed_witness :
    sleep_5_amp ≠ [] ∧ (∀ w ∈ words sleep_5_amp, is_word w) ∧
    (text sleep_5_amp).getLast? = some '&' ∧
    text sleep_5_amp ++ (spaces (0 + 1) ++ ['\n']) = "sleep 5 & \n".toList ∧
    words sleep_5_amp = ["sleep".toList, "5".toList, "&".toList] ∧
    (∃ r, parse_command (text sleep_5_amp ++ (spaces (0 + 1) ++ ['\n'])) 0 = some r ∧
      r.background = 0) ∧
    (sleep_5_amp.length ≤ 63 → (∀ w ∈ words sleep_5_amp, w ≠ ['|'] ∧ w ≠ ['<']) →
      parse_command (text sleep_5_amp ++ (spaces (0 + 1) ++ ['\n'])) 0
        = some { ret := 1, command := ztext sleep_5_amp ++ padding (0 + 1) false,
                 args := (offsets 0 sleep_5_amp).map some ++ [none],
                 background := 0, redirect_input := 0, diag := [] } ∧
      resolve (ztext sleep_5_amp ++ padding (0 + 1) false)
          ((offsets 0 sleep_5_amp).map some ++ [none])
        = (words sleep_5_amp).map some ++ [none] ∧
      (words sleep_5_amp).getLast?.bind List.getLast? = some '&') :=
  ⟨by decide, by decide, by decide, by decide, by decide,
   ampersand_before_spaces_missed sleep_5_amp 0 0 (by decide) (by decide) (by decide)⟩

/-- C7 fails on the code: on "sleep 5 & " and a newline parse_command tests the last
character, a space, before it trims the trailing spaces, so background stays 0 and the
ampersand is the third argument; the main loop then runs the command in the foreground
(fork, waitpid) and no job is recorded.  Without the trailing space the same command is
a background job. -/
theorem C7_ampersand_then_space_runs_foreground :
    (parse_command "sleep 5 & \n".toList 0).map
        (fun r => (r.ret, r.background, resolve r.command r.args))
      = some (1, 0, [some "sleep".toList, some "5".toList, some "&".toList, none]) ∧
    main_iteration Env.parent ShellState.init "sleep 5 & \n".toList 0
      = { outcome := Outcome.returned 0, state := ShellState.init,
          trace := [Event.fork ["sleep".toList, "5".toList, "&".toList] 1000,
                    Event.waitpid 1000] } ∧
    (parse_command "sleep 5 &\n".toList 0).map
        (fun r => (r.ret, r.background, resolve r.command r.args))
      = some (1, 1, [some "sleep".toList, some "5".toList, none]) ∧
    (main_iteration Env.parent ShellState.init "sleep 5 &\n".toList 0).trace
      = [Event.fork ["sleep".toList, "5".toList] 1000, Event.out (Msg.job_added 1 1000)] := by
  exact ⟨by decide, by decide, by decide, by decide⟩

/-! ## A line whose first token is a pipe -/

theorem soft_end_set (tl : List Char) (j : Nat) (h : soft_end tl) : soft_end (tl.set j NUL) := by
  cases tl with
  | nil => exact Or.inl rfl
  | cons a t =>
    cases j with
    | zero => exact Or.inr (Or.inr rfl)
    | succ j =>
      rcases h with h | h | h
      · simp at h
      · exact Or.inr (Or.inl h)
      · exact Or.inr (Or.inr h)

theorem at_end_set (tl : List Char) (j : Nat) (h : at_end tl) : at_end (tl.set j NUL) := by
  cases tl with
  | nil => exact Or.inl rfl
  | cons a t =>
    cases j with
    | zero => exact Or.inr rfl
    | succ j =>
      rcases h with h | h
      · simp at h
      · exact Or.inr h

theorem at_end_soft (tl : List Char) (h : at_end tl) : soft_end tl := by
  rcases h with h | h
  · exact Or.inl h
  · exact Or.inr (Or.inr h)

theorem length_pipe_first (g : Nat) : (pipe_first g).length = g + 1 := by
  simp [pipe_first, length_spaces]

theorem pipe_first_clean (g : Nat) : ∀ x ∈ pipe_first g, x ≠ '\n' ∧ x ≠ NUL := by
  intro x hx
  rcases List.mem_append.1 hx with h | h
  · rw [mem_spaces h]; decide
  · simp at h; subst h; decide

theorem takeWhile_append_all {p : Char → Bool} (xs rest : List Char)
    (hxs : ∀ c ∈ xs, p c = true) :
    (xs ++ rest).takeWhile p = xs ++ rest.takeWhile p := by
  induction xs with
  | nil => rfl
  | cons x xs ih =>
    have hx : p x = true := hxs x (by simp)
    simp only [List.cons_append, List.takeWhile_cons, hx, if_true]
    rw [ih (fun c hc => hxs c (by simp [hc]))]

theorem strlen_pipe_first (g : Nat) (tl : List Char) :
    strlen (pipe_first g ++ tl) = g + 1 + strlen tl := by
  unfold strlen cstr
  rw [List.drop_zero, List.drop_zero,
    takeWhile_append_all _ _ (fun c hc => by simp [(pipe_first_clean g c hc).2]),
    List.length_append, length_pipe_first]

theorem byteAt_pipe_first (g : Nat) (tl : List Char) : byteAt (pipe_first g ++ tl) g = '|' := by
  have := byteAt_snoc (spaces g) '|' tl
  rwa [length_spaces] at this

theorem set_pipe_first (g : Nat) (tl : List Char) (i : Nat) (x : Char) (hi : g + 1 ≤ i) :
    (pipe_first g ++ tl).set i x = pipe_first g ++ tl.set (i - (g + 1)) x := by
  rw [List.set_append_right _ _ (by rw [length_pipe_first]; exact hi), length_pipe_first]

/-- Writing NUL over the last character of the string, when that character is not the
pipe, leaves the pipe prefix in place. -/
theorem set_last_pipe_first (g : Nat) (tl : List Char) (hs : soft_end tl)
    (hne : byteAt (pipe_first g ++ tl) (strlen (pipe_first g ++ tl) - 1) ≠ '|') :
    ∃ tl2, (pipe_first g ++ tl).set (strlen (pipe_first g ++ tl) - 1) NUL = pipe_first g ++ tl2 ∧
      soft_end tl2 := by
  rw [strlen_pipe_first] at hne ⊢
  have hpos : strlen tl ≠ 0 := by
    intro h0
    rw [h0] at hne
    exact hne (by simpa using byteAt_pipe_first g tl)
  refine ⟨tl.set (g + 1 + strlen tl - 1 - (g + 1)) NUL, ?_, soft_end_set _ _ hs⟩
  exact set_pipe_first g tl _ NUL (by omega)

theorem trim_trailing_pipe_first (g : Nat) :
    ∀ (fuel : Nat) (tl : List Char), soft_end tl →
      ∃ tl2, trim_trailing fuel (pipe_first g ++ tl) = pipe_first g ++ tl2 ∧ soft_end tl2 := by
  intro fuel
  induction fuel with
  | zero => intro tl hs; exact ⟨tl, rfl, hs⟩
  | succ f ih =>
    intro tl hs
    unfold trim_trailing
    by_cases hc : strlen (pipe_first g ++ tl) > 0 ∧
        byteAt (pipe_first g ++ tl) (strlen (pipe_first g ++ tl) - 1) = ' '
    · rw [if_pos hc]
      obtain ⟨tl2, h2, hs2⟩ := set_last_pipe_first g tl hs (by rw [hc.2]; decide)
      rw [h2]
      exact ih tl2 hs2
    · rw [if_neg hc]
      exact ⟨tl, rfl, hs⟩

/-- `strtok` called past the pipe prefix leaves the prefix and the end after it. -/
theorem strtok_pipe_first (g : Nat) (tl : List Char) (h : at_end tl) (p : Nat)
    (hp : g + 1 ≤ p) :
    ∃ tl2, (strtok (pipe_first g ++ tl) p).buf = pipe_first g ++ tl2 ∧ at_end tl2 ∧
      g + 1 ≤ (strtok (pipe_first g ++ tl) p).save := by
  unfold strtok
  simp only []
  split
  · exact ⟨tl, rfl, h, by simp only []; omega⟩
  · split
    · exact ⟨tl, rfl, h, by simp only []; omega⟩
    · refine ⟨_, set_pipe_first g tl _ NUL (by omega), at_end_set _ _ h, by simp only []; omega⟩

theorem tokenize_loop_pipe_first (g : Nat) :
    ∀ (fuel : Nat) (tl : List Char) (token : Option Nat) (save : Nat) (acc : List (Option Nat)),
      at_end tl → g + 1 ≤ save →
      ∃ tl2 more, tokenize_loop fuel (pipe_first g ++ tl) token save acc
        = (pipe_first g ++ tl2, acc ++ more) ∧ at_end tl2 := by
  intro fuel
  induction fuel with
  | zero => intro tl token save acc h _; exact ⟨tl, [], by simp [tokenize_loop], h⟩
  | succ f ih =>
    intro tl token save acc h hsave
    cases token with
    | none => exact ⟨tl, [], by simp [tokenize_loop], h⟩
    | some t =>
      obtain ⟨tl2, h2, he2, hs2⟩ := strtok_pipe_first g tl h save hsave
      obtain ⟨tl3, more, h3, he3⟩ := ih tl2 (strtok (pipe_first g ++ tl) save).token
        (strtok (pipe_first g ++ tl) save).save (acc ++ [some t]) he2 hs2
      refine ⟨tl3, some t :: more, ?_, he3⟩
      simp only [tokenize_loop]
      rw [h2, h3]
      simp

theorem cstr_pipe_first (g : Nat) (tl : List Char) (h : at_end tl) :
    cstr (pipe_first g ++ tl) g = ['|'] := by
  have := cstr_word [] g ['|'] tl (by decide) h
  simpa [pipe_first] using this

/-- From the empty check on, a trimmed string that starts with a pipe token is rejected
by the pipe check. -/
theorem tokenize_and_check_pipe_first (g : Nat) (tl : List Char) (hs : soft_end tl)
    (background redirect_input : Int) :
    (tokenize_and_check (pipe_first g ++ tl) background redirect_input).ret = 0 ∧
    (tokenize_and_check (pipe_first g ++ tl) background redirect_input).diag
      = [Event.err Msg.invalid_pipe_placement] := by
  have hlen : strlen (pipe_first g ++ tl) ≠ 0 := by rw [strlen_pipe_first]; omega
  have hrest : tl = [] ∨ ∃ y ys, tl = y :: ys ∧ (y = ' ' ∨ y = NUL) := by
    rcases hs with h | h | h
    · exact Or.inl h
    · cases tl with
      | nil => exact Or.inl rfl
      | cons a t => simp at h; exact Or.inr ⟨a, t, rfl, Or.inl h⟩
    · cases tl with
      | nil => exact Or.inl rfl
      | cons a t => simp at h; exact Or.inr ⟨a, t, rfl, Or.inr h⟩
  -- the first strtok call returns the pipe token
  have hfirst : ∃ tl4 save, strtok (pipe_first g ++ tl) 0
      = { buf := pipe_first g ++ tl4, token := some g, save := save } ∧
      at_end tl4 ∧ g + 1 ≤ save := by
    have hk := strtok_word [] g ['|'] tl (by decide) hrest
    simp only [List.nil_append, List.length_nil, Nat.zero_add, List.length_singleton] at hk
    have e : spaces g ++ (['|'] ++ tl) = pipe_first g ++ tl := by simp [pipe_first]
    rw [e] at hk
    by_cases hb : byteAt tl 0 = NUL
    · rw [if_pos hb] at hk
      refine ⟨tl, g + 1, hk, ?_, Nat.le_refl _⟩
      cases tl with
      | nil => exact Or.inl rfl
      | cons a t => exact Or.inr (by simpa [byteAt] using hb)
    · rw [if_neg hb, set_pipe_first g tl _ NUL (Nat.le_refl _), Nat.sub_self] at hk
      refine ⟨_, g + 1 + 1, hk, ?_, by omega⟩
      cases tl with
      | nil => exact Or.inl rfl
      | cons a t => exact Or.inr rfl
  obtain ⟨tl4, save, h4, he4, hs4⟩ := hfirst
  obtain ⟨tl5, hb5, he5, hs5⟩ := strtok_pipe_first g tl4 he4 save hs4
  obtain ⟨tl6, more, h6, he6⟩ := tokenize_loop_pipe_first g 62 tl5
    (strtok (pipe_first g ++ tl4) save).token (strtok (pipe_first g ++ tl4) save).save
    ([] ++ [some g]) he5 hs5
  have hloop : tokenize_loop (MAX_ARGS - 1) (pipe_first g ++ tl4) (some g) save []
      = (pipe_first g ++ tl6, some g :: more) := by
    show tokenize_loop (62 + 1) (pipe_first g ++ tl4) (some g) save [] = _
    simp only [tokenize_loop]
    rw [hb5, h6]
    simp
  have hbad : bad_pipe_placement (some g :: more ++ [none]).length (pipe_first g ++ tl6)
      (some g :: more ++ [none]) 0 = true := by
    simp only [List.cons_append, List.length_cons, bad_pipe_placement, argAt,
      List.getD_cons_zero, cstr_pipe_first g tl6 he6, true_or, and_self, if_true]
  unfold tokenize_and_check
  rw [if_neg hlen]
  simp only [h4, hloop, hbad, if_true, and_self]

theorem cut_newline_pipe_first (g : Nat) (tail : List Char)
    (htail : tail = [] ∨ tail.head? = some ' ' ∨ tail.head? = some '\n' ∨ tail.head? = some NUL) :
    ∃ tl, (pipe_first g ++ tail).set (strcspn_newline (pipe_first g ++ tail)) NUL
      = pipe_first g ++ tl ∧ soft_end tl := by
  have hcspn : strcspn_newline (pipe_first g ++ tail) = g + 1 + strcspn_newline tail := by
    unfold strcspn_newline
    rw [takeWhile_append_all _ _ (fun c hc => by
      simp [(pipe_first_clean g c hc).1, (pipe_first_clean g c hc).2]),
      List.length_append, length_pipe_first]
  refine ⟨tail.set (strcspn_newline tail) NUL, ?_, ?_⟩
  · rw [hcspn, set_pipe_first g tail _ NUL (by omega)]
    congr 2
    omega
  · cases tail with
    | nil => exact Or.inl rfl
    | cons a t =>
      rcases htail with h | h | h | h
      · simp at h
      · simp at h; subst h
        exact Or.inr (Or.inl (by simp [strcspn_newline, List.takeWhile]; rfl))
      · simp at h; subst h
        exact Or.inr (Or.inr (by simp [strcspn_newline, List.takeWhile]))
      · simp at h; subst h
        exact Or.inr (Or.inr (by simp [strcspn_newline, List.takeWhile]))

/-- A line whose first token is a pipe is rejected by parse_command, whatever follows. -/
theorem parse_command_pipe_first (g : Nat) (tail : List Char) (redirect_input : Int)
    (htail : tail = [] ∨ tail.head? = some ' ' ∨ tail.head? = some '\n' ∨ tail.head? = some NUL) :
    ∃ r, parse_command (pipe_first g ++ tail) redirect_input = some r ∧ r.ret = 0 ∧
      r.diag = [Event.err Msg.invalid_pipe_placement] := by
  obtain ⟨tl1, h1, hs1⟩ := cut_newline_pipe_first g tail htail
  have hlen1 : strlen (pipe_first g ++ tl1) ≠ 0 := by rw [strlen_pipe_first]; omega
  unfold parse_command
  simp only [h1, if_neg hlen1]
  by_cases ha : byteAt (pipe_first g ++ tl1) (strlen (pipe_first g ++ tl1) - 1) = '&'
  · obtain ⟨tl2, h2, hs2⟩ := set_last_pipe_first g tl1 hs1 (by rw [ha]; decide)
    simp only [ha, decide_True, if_true, h2]
    obtain ⟨tl3, h3, hs3⟩ := trim_trailing_pipe_first g (strlen (pipe_first g ++ tl2)) tl2 hs2
    rw [h3]
    exact ⟨_, rfl, tokenize_and_check_pipe_first g tl3 hs3 _ _⟩
  · simp only [ha, decide_False, Bool.false_eq_true, if_false]
    obtain ⟨tl3, h3, hs3⟩ := trim_trailing_pipe_first g (strlen (pipe_first g ++ tl1)) tl1 hs1
    rw [h3]
    exact ⟨_, rfl, tokenize_and_check_pipe_first g tl3 hs3 _ _⟩

/-! ## A line whose last token is a pipe -/

theorem argAt_offsets (offs : List Nat) (i : Nat) (hi : i < offs.length) :
    argAt (offs.map some ++ [none]) i = some offs[i] := by
  unfold argAt
  rw [List.getD_eq_getElem?_getD, List.getElem?_append_left (by simpa using hi)]
  simp [List.getElem?_eq_getElem hi]

theorem argAt_offsets_end (offs : List Nat) :
    argAt (offs.map some ++ [none]) offs.length = none := by
  unfold argAt
  rw [List.getD_eq_getElem?_getD, List.getElem?_append_right (by simp)]
  simp

theorem bad_pipe_placement_last (b : Buf) (offs : List Nat)
    (hlast : (offs.map (cstr b)).getLast? = some ['|']) :
    ∀ (fuel i : Nat), i < offs.length → offs.length - i ≤ fuel →
      bad_pipe_placement fuel b (offs.map some ++ [none]) i = true := by
  intro fuel
  induction fuel with
  | zero => intro i hi hf; omega
  | succ f ih =>
    intro i hi hf
    unfold bad_pipe_placement
    rw [argAt_offsets offs i hi]
    simp only []
    by_cases hc : cstr b offs[i] = ['|'] ∧ (i = 0 ∨ argAt (offs.map some ++ [none]) (i + 1) = none)
    · rw [if_pos hc]
    · rw [if_neg hc]
      by_cases hend : i + 1 = offs.length
      · exfalso
        apply hc
        constructor
        · rw [List.getLast?_eq_getElem?] at hlast
          have hi2 : (offs.map (cstr b)).length - 1 = i := by simp; omega
          rw [hi2, List.getElem?_map, List.getElem?_eq_getElem hi] at hlast
          simpa using hlast
        · right; rw [hend]; exact argAt_offsets_end offs
      · exact ih (i + 1) (by omega) (by omega)

/-- A line of at most 63 words whose last word is a pipe is rejected by parse_command. -/
theorem parse_command_pipe_last (cells : List (Nat × Str)) (k : Nat) (redirect_input : Int)
    (hne : cells ≠ []) (hwf : ∀ w ∈ words cells, is_word w) (hlen : cells.length ≤ MAX_ARGS - 1)
    (hlast : (words cells).getLast? = some ['|']) :
    ∃ r, parse_command (line_of cells k false) redirect_input = some r ∧ r.ret = 0 ∧
      r.diag = [Event.err Msg.invalid_pipe_placement] := by
  have hcells := words_wf cells hwf
  have hamp : (text cells).getLast? ≠ some '&' := by
    rw [text_getLast? cells hcells, hlast]; decide
  have hoff : ((offsets 0 cells).map (cstr (ztext cells ++ padding k false))).getLast?
      = some ['|'] := by
    have := cstr_offsets (padding k false) (at_end_padding k false) cells [] hcells
    simp only [List.nil_append, List.length_nil] at this
    rw [this, hlast]
  have hpos : 0 < (offsets 0 cells).length := by
    obtain ⟨⟨g, w⟩, rest, rfl⟩ := List.exists_cons_of_ne_nil hne
    simp [offsets]
  have hbad := bad_pipe_placement_last _ _ hoff
    ((offsets 0 cells).map some ++ [none]).length 0 hpos (by simp)
  rw [parse_command_line_of cells k false redirect_input hne hcells hlen (fun _ _ => hamp),
    if_pos hbad]
  exact ⟨_, rfl, rfl, rfl⟩

theorem main_iteration_rejected (env : Env) (st : ShellState) (command : Buf)
    (redirect_input : Int)
    (h : ∃ r, parse_command command redirect_input = some r ∧ r.ret = 0 ∧
      r.diag = [Event.err Msg.invalid_pipe_placement]) :
    (main_iteration env st command redirect_input).outcome = Outcome.returned 0 ∧
    (main_iteration env st command redirect_input).state = st ∧
    ((main_iteration env st command redirect_input).trace = [] ∨
      (main_iteration env st command redirect_input).trace
        = [Event.err Msg.invalid_pipe_placement]) := by
  obtain ⟨r, hr, hret, hdiag⟩ := h
  unfold main_iteration
  by_cases hs : strlen command ≤ 1
  · rw [if_pos hs]; exact ⟨rfl, rfl, Or.inl rfl⟩
  · rw [if_neg hs, hr]
    simp [hret, hdiag]

/-- C1 as the code has it: a line whose first token is a pipe (whatever follows), or a
line of at most 63 tokens whose last token is a pipe, makes parse_command return 0, and
the main loop drops the line: it goes on with the same globals and its trace holds at
most the diagnostic, so no fork and no pipe call. -/
theorem C1_pipe_first_or_last (env : Env) (st : ShellState) (command : Buf)
    (redirect_input : Int)
    (h : (∃ g tail, command = pipe_first g ++ tail ∧
            (tail = [] ∨ tail.head? = some ' ' ∨ tail.head? = some '\n' ∨
              tail.head? = some NUL)) ∨
         (∃ cells k, command = line_of cells k false ∧ cells ≠ [] ∧
            (∀ w ∈ words cells, is_word w) ∧ cells.length ≤ 63 ∧
            (words cells).getLast? = some ['|'])) :
    (∃ r, parse_command command redirect_input = some r ∧ r.ret = 0) ∧
    (main_iteration env st command redirect_input).outcome = Outcome.returned 0 ∧
    (main_iteration env st command redirect_input).state = st ∧
    forks (main_iteration env st command redirect_input).trace = 0 ∧
    pipes (main_iteration env st command redirect_input).trace = 0 := by
  have hp : ∃ r, parse_command command redirect_input = some r ∧ r.ret = 0 ∧
      r.diag = [Event.err Msg.invalid_pipe_placement] := by
    rcases h with ⟨g, tail, rfl, htail⟩ | ⟨cells, k, rfl, hne, hwf, hlen, hlast⟩
    · exact parse_command_pipe_first g tail redirect_input htail
    · exact parse_command_pipe_last cells k redirect_input hne hwf hlen hlast
  obtain ⟨ho, hst, htr⟩ := main_iteration_rejected env st command redirect_input hp
  obtain ⟨r, hr, hret, _⟩ := hp
  refine ⟨⟨r, hr, hret⟩, ho, hst, ?_, ?_⟩
  · rcases htr with h | h <;> rw [h] <;> rfl
  · rcases htr with h | h <;> rw [h] <;> rfl

theorem C1_pipe_first_or_last_witness :
    "| ls\n".toList = pipe_first 0 ++ " ls\n".toList ∧
    (∃ r, parse_command "| ls\n".toList 0 = some r ∧ r.ret = 0) ∧
    (main_iteration Env.parent ShellState.init "| ls\n".toList 0).outcome
      = Outcome.returned 0 ∧
    (main_iteration Env.parent ShellState.init "| ls\n".toList 0).state = ShellState.init ∧
    forks (main_iteration Env.parent ShellState.init "| ls\n".toList 0).trace = 0 ∧
    pipes (main_iteration Env.parent ShellState.init "| ls\n".toList 0).trace = 0 :=
  ⟨by decide,
   C1_pipe_first_or_last Env.parent ShellState.init "| ls\n".toList 0
     (Or.inl ⟨0, " ls\n".toList, by decide, Or.inr (Or.inl (by decide))⟩)⟩

set_option maxRecDepth 200000 in
/-- C1 fails as stated: the line "ls | | wc", with two adjacent pipe tokens, is accepted
by parse_command and the main loop forks three processes for it; and a line of 64 tokens
whose last token is a pipe is accepted too, because only the first 63 tokens are kept. -/
theorem C1_adjacent_pipes_counterexample :
    (parse_command "ls | | wc\n".toList 0).map (fun r => (r.ret, resolve r.command r.args))
      = some (1, [some "ls".toList, some "|".toList, some "|".toList, some "wc".toList, none]) ∧
    forks (main_iteration Env.parent ShellState.init "ls | | wc\n".toList 0).trace = 3 ∧
    (parse_command sixty_three_a_then_pipe 0).map (fun r => r.ret) = some 1 ∧
    forks (main_iteration Env.parent ShellState.init sixty_three_a_then_pipe 0).trace = 1 := by
  refine ⟨by decide, by decide, ?_, ?_⟩
  · decide
  · decide

/-! ## Input redirection and the pipeline path, evaluated -/

/-- C6 fails on the code: on the line "sort < in" parse_command returns 1 with
redirect_input 1, but strcpy writes the file name over the start of the buffer, where
args[0] points.  The vector execute_command reads is ["in"]; the child opens "in" and
then executes "in", not "sort". -/
theorem C6_redirect_overwrites_program :
    (parse_command "sort < in\n".toList 0).map
        (fun r => (r.ret, r.redirect_input, resolve r.command r.args))
      = some (1, 1, [some "in".toList, none, none, none]) ∧
    main_iteration Env.child ShellState.init "sort < in\n".toList 0
      = { outcome := Outcome.replaced "in".toList ["in".toList],
          state := ShellState.init,
          trace := [Event.fork ["in".toList] 0, Event.open_rdonly "in".toList 3,
                    Event.dup2 3 0, Event.close 3,
                    Event.execvp "in".toList ["in".toList]] } := by
  exact ⟨by decide, by decide⟩

/-- C10 fails on the code: the line "l$ | wc" decodes into a pipeline whose first program
name the validator rejects, yet the main loop hands it to execute_piped_command, which
never calls validate_command: one pipe is created and two processes are forked. -/
theorem C10_pipeline_skips_validator :
    (parse_command "l$ | wc\n".toList 0).map (fun r => (r.ret, resolve r.command r.args))
      = some (1, [some "l$".toList, some "|".toList, some "wc".toList, none]) ∧
    validate_command (some [some "l$".toList, some "|".toList, some "wc".toList, none])
      = (0, [Event.err Msg.invalid_characters]) ∧
    (main_iteration Env.parent ShellState.init "l$ | wc\n".toList 0).outcome
      = Outcome.returned 0 ∧
    pipes (main_iteration Env.parent ShellState.init "l$ | wc\n".toList 0).trace = 1 ∧
    forks (main_iteration Env.parent ShellState.init "l$ | wc\n".toList 0).trace = 2 ∧
    forked_commands (main_iteration Env.parent ShellState.init "l$ | wc\n".toList 0).trace
      = [["l$".toList], ["wc".toList]] := by
  refine ⟨by decide, by decide, by decide, by decide, by decide, by decide⟩

end MyShell
